import Mathlib

/-!
# wsh: the command-line evaluation engine

A shallow embedding of `src/wsh.c` (tokenizer, variable expander, substitution
expander) and the properties of the specification that hold, or fail, on it.

C strings are modelled as `List Char` (the text before the terminating NUL).
-/

namespace Wsh

/-! ## Constants of `wsh.h` -/

/-- Max line size (`#define MAXLINE 1024`). -/
def MAXLINE : Nat := 1024

/-- Max args on a command line (`#define MAXARGS 128`). -/
def MAXARGS : Nat := 128

/-- The single quote character. -/
def QUOTE : Char := Char.ofNat 39

/-- The newline character. -/
def NL : Char := Char.ofNat 10

/-- The tab character. -/
def TAB : Char := Char.ofNat 9

/-! ## libc string helpers -/

/-- The call `strchr(p, c)` for a non-NUL `c`: `none` when `c` does not occur in `p`,
otherwise the text before the first occurrence and the text after it. -/
def strchr (c : Char) : List Char → Option (List Char × List Char)
  | [] => none
  | x :: xs =>
    if x = c then some ([], xs)
    else
      match strchr c xs with
      | none => none
      | some (before, after) => some (x :: before, after)

/-- The loop `while (*p && (*p == ' ')) p++;`. -/
def skipSpaces : List Char → List Char
  | [] => []
  | c :: cs => if c = ' ' then skipSpaces cs else c :: cs

/-! ## Tokenizer: `parseline_no_subst` (wsh.c 687-746) -/

/-- How a call of `parseline_no_subst` ends.
* `done argv`: the scan reached the end of the buffer, `argv[0..count-1]` hold the
  tokens, `argv[count] = NULL` and `*argc = count` were stored;
* `missingQuote stored`: the early `return` after "Missing closing quote"; the tokens
  found before it were stored in `argv`, but neither the `NULL` terminator nor `*argc`
  was written;
* `overflow`: the scan stored at index `MAXARGS` or beyond of the caller's
  `char *argv[MAXARGS]`. -/
inductive ParseOutcome where
  | done (argv : List (List Char))
  | missingQuote (stored : List (List Char))
  | overflow
  deriving DecidableEq, Repr

/-- Lines 695-707: a trailing newline is overwritten by a space, otherwise a space is
appended. -/
def padLine (cmdline : List Char) : List Char :=
  if cmdline.getLast? = some NL then cmdline.dropLast ++ [' '] else cmdline ++ [' ']

/-- The main loop `while (*p) { ... }` of lines 714-742 followed by lines 743-744.
`p` is the unread rest of the buffer, `argv` the tokens stored so far (`count` is
`argv.length`). Every iteration consumes at least one character of `p`; `fuel` bounds the
number of iterations and `none` means that it ran out. -/
def parseLoop : Nat → List Char → List (List Char) → Option ParseOutcome
  | 0, _, _ => none
  | _ + 1, [], argv =>
    -- argv[count] = NULL; *argc = count;
    if argv.length < MAXARGS then some (.done argv) else some .overflow
  | fuel + 1, c :: rest, argv =>
    if c = QUOTE then
      -- token_start = ++p; token = strchr(p, '\'');
      match strchr QUOTE rest with
      | none => some (.missingQuote argv)
      | some (tok, after) =>
        if argv.length < MAXARGS then
          parseLoop fuel (skipSpaces after) (argv ++ [tok])
        else some .overflow
    else
      -- token = strchr(p, ' ');
      match strchr ' ' (c :: rest) with
      | none =>
        -- break;
        if argv.length < MAXARGS then some (.done argv) else some .overflow
      | some (tok, after) =>
        if argv.length < MAXARGS then
          parseLoop fuel (skipSpaces after) (argv ++ [tok])
        else some .overflow

/-- The function `parseline_no_subst(cmdline, argv, argc)`. -/
def parseline_no_subst (cmdline : List Char) : Option ParseOutcome :=
  let buf := padLine cmdline
  parseLoop (buf.length + 1) (skipSpaces buf) []

/-- The caller's `argc` after the call, `argc0` being what the variable held before it
(both callers pass an uninitialised `int`). `none`: the call wrote outside `argv`. -/
def ParseOutcome.argcAfter (argc0 : Int) : ParseOutcome → Option Int
  | .done argv => some (argv.length : Int)
  | .missingQuote _ => some argc0
  | .overflow => none

/-! ## Specification-side notions for the tokenizer -/

/-- The re-quoted form of an argument vector: each token wrapped in single quotes,
the quoted tokens joined by one space. -/
def requote (v : List (List Char)) : List Char :=
  List.intercalate [' '] (v.map (fun t => QUOTE :: t ++ [QUOTE]))

/-- One trailing newline, if present, turned into a space. -/
def trailingNewlineToSpace (l : List Char) : List Char :=
  if l.getLast? = some NL then l.dropLast ++ [' '] else l

/-- The maximal runs of non-space characters of a text, in order. -/
def spaceRuns (l : List Char) : List (List Char) :=
  (l.splitOn ' ').filter (fun t => t ≠ [])

/-! ## Lines used in the statements below -/

/-- A line of `n` one-letter words, each followed by a space. -/
def manyWords : Nat → List Char
  | 0 => []
  | n + 1 => 'a' :: ' ' :: manyWords n

/-- The re-quoted form with a space after every token. -/
def quotedRun : List (List Char) → List Char
  | [] => []
  | t :: v => QUOTE :: (t ++ QUOTE :: ' ' :: quotedRun v)

/-! ## Variable Expander: `do_variable_substitution` (wsh.c 504-577) -/

/-- The process environment as `getenv` sees it: `none` is the `NULL` result. -/
abbrev Env := List Char → Option (List Char)

/-- Membership in the delimiter string `" \t\n="`. -/
def isDelim (c : Char) : Bool :=
  c == ' ' || c == TAB || c == NL || c == '='

/-- One call of `strtok_r` (or `strtok`) with the delimiter set `delims` on the unread
text `s`: `none` when only delimiters are left, otherwise the token and the new unread
text (the delimiter that ended the token is overwritten by NUL and skipped). -/
def strtok_r (delims : Char → Bool) (s : List Char) : Option (List Char × List Char) :=
  match s.dropWhile delims with
  | [] => none
  | c :: cs =>
    some ((c :: cs).takeWhile (fun x => !delims x),
      ((c :: cs).dropWhile (fun x => !delims x)).drop 1)

/-- The call `strstr(hay, needle)`: `none` when `needle` does not occur in `hay`,
otherwise the text before its first occurrence and the text after that occurrence. -/
def strstr : List Char → List Char → Option (List Char × List Char)
  | [], needle => if needle = [] then some ([], []) else none
  | c :: cs, needle =>
    if needle.isPrefixOf (c :: cs) then some ([], (c :: cs).drop needle.length)
    else
      match strstr cs needle with
      | none => none
      | some (before, after) => some (c :: before, after)

/-- The `for` loop of lines 532-544 over the Local Variable Store (entries
`NAME=VALUE`): every entry is compared, so the last entry whose name is `name` gives the
value. -/
def lookupLocal (local_vars : List (List Char)) (name : List Char) : Option (List Char) :=
  local_vars.foldl
    (fun var_value entry =>
      match strchr '=' entry with
      | none => var_value
      | some (n, v) => if n = name then some v else var_value)
    none

/-- Lines 527-550: the value of the variable `var_name`, from the environment, else from
the Local Variable Store, else the empty string. -/
def varValue (env : Env) (local_vars : List (List Char)) (var_name : List Char) : List Char :=
  match env var_name with
  | some v => v
  | none =>
    match lookupLocal local_vars var_name with
    | some v => v
    | none => []

/-- The test `token[0] == '$' && token[1] != '('` of line 525. -/
def isVarToken (token : List Char) : Bool :=
  match token with
  | '$' :: '(' :: _ => false
  | '$' :: _ => true
  | _ => false

/-- Lines 553-571: the first occurrence of `token` in `current`, as `strstr` finds it, is
replaced by `var_value`; `current` is kept when `token` does not occur. -/
def splice (current token var_value : List Char) : List Char :=
  match strstr current token with
  | none => current
  | some (before, after) => before ++ var_value ++ after

/-- The loop `while (token != NULL)` of lines 523-574. `saveptr` is the unread rest of
`commandCopy`, `current` the string rewritten so far. Every call of `strtok_r` consumes at
least one character; `fuel` bounds the number of iterations and `none` means that it ran
out. -/
def substLoop (env : Env) (local_vars : List (List Char)) :
    Nat → List Char → List Char → Option (List Char)
  | 0, _, _ => none
  | fuel + 1, saveptr, current =>
    match strtok_r isDelim saveptr with
    | none => some current
    | some (token, saveptr') =>
      if isVarToken token then
        substLoop env local_vars fuel saveptr'
          (splice current token (varValue env local_vars (token.drop 1)))
      else
        substLoop env local_vars fuel saveptr' current

/-- The function `do_variable_substitution(command)`, with the environment and the Local
Variable Store it reads made explicit. -/
def do_variable_substitution (env : Env) (local_vars : List (List Char))
    (command : List Char) : Option (List Char) :=
  substLoop env local_vars (command.length + 1) command command

/-! ## Specification-side notions for the Variable Expander -/

/-- The expansion the specification describes: the text is cut into its maximal runs of
delimiters and of other characters (the tokens), every token that begins with `$` but not
with `$(` is replaced where it stands by the value of its name, and everything else is
kept. -/
def expandInPlace (env : Env) (local_vars : List (List Char)) (command : List Char) :
    List Char :=
  ((command.splitBy (fun a b => isDelim a == isDelim b)).map
    (fun run => if isVarToken run then varValue env local_vars (run.drop 1) else run)).flatten

/-- An environment in which nothing is set. -/
def emptyEnv : Env := fun _ => none

/-! ## What the interpreter does that can be observed -/

/-- What a forked child does after a failed `execvp`. -/
inductive AfterExecFailure where
  /-- The child calls `exit(status)`. -/
  | exits (status : Int)
  /-- The child sets `exit_status = 255` and returns from `eval` to its caller. -/
  | returnsToCaller
  deriving DecidableEq, Repr

/-- The code a forked child runs. Descriptors are named by their index in `pipefds`
(pipe `k` has its read end at `2 * k` and its write end at `2 * k + 1`). -/
structure Child where
  /-- The descriptor duplicated onto standard input, if any. -/
  stdin : Option Nat
  /-- The descriptor duplicated onto standard output, if any. -/
  stdout : Option Nat
  /-- The descriptors closed before `execvp`. -/
  closed : List Nat
  /-- The argument vector given to `execvp`. -/
  argv : List (List Char)
  /-- The message written to standard error when `execvp` fails. -/
  message : String
  /-- What follows that message. -/
  after : AfterExecFailure
  deriving DecidableEq, Repr

/-- The actions of the interpreter process that the outside can observe, in the order in
which they happen. -/
inductive Action where
  /-- A command substitution is captured with `popen(cmd, "r")`. -/
  | popen (cmd : Option (List Char))
  /-- A message on standard error (`app_error`, `fprintf(stderr, ...)`, `perror`). -/
  | error (msg : String)
  /-- A line on standard output. -/
  | print (line : List Char)
  /-- The built-in `ls` lists the current directory. -/
  | listDir
  /-- The built-in `ps` lists the processes. -/
  | listProcs
  /-- The call `pipe(pipefds + i * 2)`. -/
  | pipe (i : Nat)
  /-- The call `fork()`, with the code of the child. -/
  | fork (child : Child)
  /-- The parent closes `pipefds[j]`. -/
  | close (j : Nat)
  /-- The parent waits for one child (`waitpid`, `wait`). -/
  | wait
  deriving DecidableEq, Repr

/-! ## Substitution Expander: `replaceCommandSubstitution` (wsh.c 581-682) -/

/-- The command runner behind `popen(cmd, "r")`: the argument is the command text, or
`none` for a `NULL` pointer; the result is everything the child writes to its standard
output, or `none` when `popen` itself fails. -/
abbrev Runner := Option (List Char) → Option (List Char)

/-- Why `replaceCommandSubstitution` returned `NULL`. -/
inductive SubstFailure where
  /-- The scan for the closing parenthesis reached the end of the string. -/
  | unmatched
  /-- Nothing stands between `$(` and its closing parenthesis. -/
  | emptyBody
  /-- The call `popen` failed. -/
  | popenFailed
  deriving DecidableEq, Repr

/-- The message `replaceCommandSubstitution` writes before it returns `NULL`. -/
def SubstFailure.message : SubstFailure → String
  | .unmatched => "Unmatched parentheses in command substitution"
  | .emptyBody => "Invalid command substitution"
  | .popenFailed => "popen"

/-- How a call of `replaceCommandSubstitution` ends. -/
inductive Expansion where
  /-- The expanded string is returned. -/
  | ok (result : List Char)
  /-- The `NULL` pointer is returned. -/
  | null (why : SubstFailure)
  /-- The loop that reads the captured output never ends. -/
  | hang
  deriving DecidableEq, Repr

/-- The loop of lines 598-606 that looks for the closing parenthesis, entered with
`paren_count > 0`: `none` when the text ends first (`paren_count != 0` after the loop),
otherwise the text before the matching `)` and the text `sub_end` after it. -/
def scanParens : Nat → List Char → Option (List Char × List Char)
  | _, [] => none
  | paren_count, c :: cs =>
    let paren_count' :=
      if c = '(' then paren_count + 1 else if c = ')' then paren_count - 1 else paren_count
    if paren_count' = 0 then some ([], cs)
    else
      match scanParens paren_count' cs with
      | none => none
      | some (sub_cmd, sub_end) => some (c :: sub_cmd, sub_end)

/-- One successful `fgets(buf, k + 1, fp)` with `k ≥ 1` on the unread `stream`: at most `k`
characters are read, stopping after a newline; the characters read and the rest. -/
def fgets : Nat → List Char → List Char × List Char
  | 0, stream => ([], stream)
  | _ + 1, [] => ([], [])
  | k + 1, c :: cs =>
    if c = NL then ([c], cs)
    else ((c :: (fgets k cs).1), (fgets k cs).2)

/-- The loop of lines 648-652,
`while (fgets(output + total_read, MAXLINE - total_read, fp) != NULL) total_read = strlen(output);`
with `output` the characters read so far and `stream` the unread output of the child.
With room for one byte only, `fgets` stores the NUL, reads nothing and returns its
buffer, so the loop does not end; for an empty `stream` it returns `NULL`. The result
`none` stands for a loop that does not end (within `fuel` iterations). -/
def readLoop : Nat → List Char → List Char → Option (List Char)
  | 0, _, _ => none
  | _ + 1, output, [] =>
    if MAXLINE - output.length ≤ 1 then none else some output
  | fuel + 1, output, c :: cs =>
    if MAXLINE - output.length ≤ 1 then none
    else
      readLoop fuel (output ++ (fgets (MAXLINE - output.length - 1) (c :: cs)).1)
        (fgets (MAXLINE - output.length - 1) (c :: cs)).2

/-- What lines 638-653 leave in `output` for a child that writes `stream`. -/
def readOutput (stream : List Char) : Option (List Char) :=
  readLoop (stream.length + 1) [] stream

/-- Lines 657-661: one trailing newline is cut off. -/
def stripNewline (output : List Char) : List Char :=
  if output.getLast? = some NL then output.dropLast else output

/-- The function `replaceCommandSubstitution(command)` for the runner `run`. The result
pairs what the call does that can be observed, in order, with the way the call ends: the
observed actions are the `popen` calls and the messages written to standard error (`app_error`,
`perror`), those of the recursive calls included. Each step of `fuel` allows one more iteration
of the `while` loop or one more level of the recursion on the text between `$(` and `)`; `none`
means that `fuel` ran out. -/
def replaceCommandSubstitution (run : Runner) :
    Nat → List Char → Option (List Action × Expansion)
  | 0, _ => none
  | fuel + 1, result =>
    -- while ((sub_start = strstr(result, "$(")) != NULL)
    match strstr result ['$', '('] with
    | none => some ([], .ok result)
    | some (before, rest) =>
      match scanParens 1 rest with
      | none => some ([.error SubstFailure.unmatched.message], .null .unmatched)
      | some (sub_cmd, sub_end) =>
        -- if (sub_len <= 0)
        if sub_cmd = [] then
          some ([.error SubstFailure.emptyBody.message], .null .emptyBody)
        else
          -- expanded_sub_cmd = replaceCommandSubstitution(sub_cmd);
          match replaceCommandSubstitution run fuel sub_cmd with
          | none => none
          | some (log1, .hang) => some (log1, .hang)
          | some (log1, inner) =>
            -- popen(expanded_sub_cmd, "r"), also when expanded_sub_cmd is NULL
            let arg : Option (List Char) :=
              match inner with
              | .ok s => some s
              | _ => none
            match run arg with
            | none =>
              some (log1 ++ [.popen arg, .error SubstFailure.popenFailed.message],
                .null .popenFailed)
            | some stream =>
              match readOutput stream with
              | none => some (log1 ++ [.popen arg], .hang)
              | some output =>
                match replaceCommandSubstitution run fuel
                    (before ++ stripNewline output ++ sub_end) with
                | none => none
                | some (log2, r) => some (log1 ++ [.popen arg] ++ log2, r)

/-- A runner that behaves like `sh -c` for commands of the form `echo TEXT` (the output
is `TEXT` and a newline) and writes nothing for any other command. -/
def echoRunner : Runner := fun cmd =>
  match cmd with
  | some ('e' :: 'c' :: 'h' :: 'o' :: ' ' :: text) => some (text ++ [NL])
  | _ => some []

/-! ## The evaluator: `eval` (wsh.c 116-369) and `eval_pipe` (wsh.c 385-500) -/

/-- The process-wide state the evaluator reads and writes. -/
structure Shell where
  /-- The environment. -/
  env : Env
  /-- The Local Variable Store `local_vars[0 .. local_var_count - 1]`. -/
  local_vars : List (List Char)
  /-- The flag `exit_status`. -/
  exit_status : Int

/-- How a call of `eval` or `eval_pipe` ends. -/
inductive Flow where
  /-- The call returns to the read loop. -/
  | returned
  /-- The interpreter terminates with `exit(status)`. -/
  | exited (status : Int)
  /-- The call does not end: a substitution capture never stops reading. -/
  | hang
  /-- The call reads an uninitialised `argc` or `argv` entry, reads freed memory, or writes
  outside an array: its behaviour is not defined. -/
  | undefined
  deriving DecidableEq, Repr

/-- The outcome of evaluating one line. -/
structure EvalResult where
  /-- The state after the call. -/
  shell : Shell
  /-- What the call did. -/
  actions : List Action
  /-- How the call ended. -/
  flow : Flow

/-- The call `setenv(name, value, 1)`: it fails for an empty name and for a name with
`=`. -/
def setenv (env : Env) (name value : List Char) : Option Env :=
  if name = [] ∨ '=' ∈ name then none
  else some (fun n => if n = name then some value else env n)

/-- The call `unsetenv(name)`: it fails for an empty name and for a name with `=`. -/
def unsetenv (env : Env) (name : List Char) : Option Env :=
  if name = [] ∨ '=' ∈ name then none
  else some (fun n => if n = name then none else env n)

/-- The built-in `export` (lines 162-198) on an argument vector that starts with
`export`. -/
def evalExport (sh : Shell) (args : List (List Char)) : EvalResult :=
  match args with
  | [] =>
    { shell := { sh with exit_status := 255 },
      actions := [.error
        "Incorrect usage of export. Usage: export {VariableName}={VariableValue}"],
      flow := .returned }
  | arg :: _ =>
    match strchr '=' arg with
    | some (var, value) =>
      if value = [] then
        match unsetenv sh.env var with
        | some env' => { shell := { sh with env := env' }, actions := [], flow := .returned }
        | none => { shell := sh, actions := [.error "unsetenv"], flow := .returned }
      else
        match setenv sh.env var value with
        | some env' => { shell := { sh with env := env' }, actions := [], flow := .returned }
        | none => { shell := sh, actions := [.error "setenv"], flow := .returned }
    | none =>
      match unsetenv sh.env arg with
      | some env' => { shell := { sh with env := env' }, actions := [], flow := .returned }
      | none => { shell := sh, actions := [.error "unsetenv"], flow := .returned }

/-- The test of lines 223 and 234,
`strncmp(entry, name, strlen(name)) == 0 && entry[strlen(name)] == '='`. -/
def entryHasName (entry name : List Char) : Bool :=
  (name ++ ['=']).isPrefixOf entry

/-- Lines 219-229: a value that begins with `$` is looked up in the store; the first
entry whose name is the text after the `$` gives the value, which is otherwise kept. -/
def resolveLocalValue (local_vars : List (List Char)) (value : List Char) : List Char :=
  match value with
  | '$' :: ref =>
    match local_vars.find? (fun entry => entryHasName entry ref) with
    | some entry =>
      match strchr '=' entry with
      | some (_, v) => v
      | none => value
    | none => value
  | _ => value

/-- Lines 232-241: the first entry named `var_name` is replaced by `var_name=value`;
`none` when no entry has that name. -/
def overwriteLocal (var_name value : List Char) : List (List Char) → Option (List (List Char))
  | [] => none
  | entry :: rest =>
    if entryHasName entry var_name then some ((var_name ++ '=' :: value) :: rest)
    else
      match overwriteLocal var_name value rest with
      | none => none
      | some rest' => some (entry :: rest')

/-- Lines 219-229: the index of the entry that `value` points into when the loop has found
one, that is, when the value begins with `$` and some entry is named by the text after it. -/
def valueSource (local_vars : List (List Char)) (value : List Char) : Option Nat :=
  match value with
  | '$' :: ref => local_vars.findIdx? (fun entry => entryHasName entry ref)
  | _ => none

/-- Whether the overwrite of lines 232-241 reads freed memory: `value` points into the entry
`local_vars[i]` that line 236 frees before lines 237 and 238 read `value`. -/
def readsFreedEntry (local_vars : List (List Char)) (var_name value : List Char) : Bool :=
  match valueSource local_vars value with
  | some j => local_vars.findIdx? (fun entry => entryHasName entry var_name) == some j
  | none => false

/-- The built-in `local` (lines 199-255) on an argument vector that starts with
`local`. -/
def evalLocal (sh : Shell) (args : List (List Char)) : EvalResult :=
  let usage : EvalResult :=
    { shell := { sh with exit_status := 255 },
      actions := [.error
        "Incorrect usage of local. Usage: local {VariableName}={VariableValue}"],
      flow := .returned }
  match args with
  | [] => usage
  | arg :: _ =>
    match strchr '=' arg with
    | none => usage
    | some (var_name, value0) =>
      -- char var_name[256]; strncpy(var_name, argv[1], name_length);
      if 256 ≤ var_name.length then { shell := sh, actions := [], flow := .undefined }
      else
        let value := resolveLocalValue sh.local_vars value0
        match overwriteLocal var_name value sh.local_vars with
        | some vars' =>
          -- free(local_vars[i]); ... strlen(value) ... sprintf(local_vars[i], "%s=%s", var_name, value);
          if readsFreedEntry sh.local_vars var_name value0 then
            { shell := sh, actions := [], flow := .undefined }
          else
            { shell := { sh with local_vars := vars' }, actions := [], flow := .returned }
        | none =>
          if sh.local_vars.length < MAXARGS then
            { shell := { sh with local_vars := sh.local_vars ++ [var_name ++ '=' :: value] },
              actions := [], flow := .returned }
          else
            { shell := sh, actions := [.error "No space to store local var"],
              flow := .returned }

/-- Lines 150-368 of `eval`: the built-ins and the fork of an external command, for a
non-empty argument vector. -/
def evalCommand (sh : Shell) (argv0 : List Char) (args : List (List Char)) : EvalResult :=
  if argv0 = "exit".toList then
    match args with
    | [] => { shell := sh, actions := [], flow := .exited 0 }
    | _ :: _ =>
      { shell := { sh with exit_status := 255 },
        actions := [.error "Incorrect usage of exit. Usage: exit"], flow := .returned }
  else if argv0 = "export".toList then evalExport sh args
  else if argv0 = "local".toList then evalLocal sh args
  else if argv0 = "vars".toList then
    { shell := sh, actions := sh.local_vars.map Action.print, flow := .returned }
  else if argv0 = "ls".toList then { shell := sh, actions := [.listDir], flow := .returned }
  else if argv0 = "ps".toList then { shell := sh, actions := [.listProcs], flow := .returned }
  else
    { shell := sh,
      actions :=
        [.fork { stdin := none, stdout := none, closed := [], argv := argv0 :: args,
                 message := "Command not found or not executable",
                 after := .returnsToCaller },
         .wait],
      flow := .returned }

/-- The splitting loop of lines 397-404: `strtok(cmdline, "|")` until the line is used up
or `MAXARGS` segments were stored; every segment loses its leading spaces. `unread` is
what `strtok` has not seen yet, `commands` the segments stored so far; `none` means that
`fuel` ran out. -/
def splitPipeline : Nat → List Char → List (List Char) → Option (List (List Char))
  | 0, _, _ => none
  | fuel + 1, unread, commands =>
    match strtok_r (fun c => c == '|') unread with
    | none => some commands
    | some (token, unread') =>
      if commands.length < MAXARGS then
        splitPipeline fuel unread' (commands ++ [skipSpaces token])
      else some commands

/-- How the tokenizing loop of lines 411-425 ends. -/
inductive StageParse where
  /-- Every segment has at least one token: the argument vectors, in stage order. -/
  | stages (argvs : List (List (List Char)))
  /-- The `return` of line 423 on a segment whose `argc` is 0; `quoteError` tells whether
  the tokenizer reported "Missing closing quote" on that segment. -/
  | aborted (quoteError : Bool)
  /-- After "Missing closing quote" an uninitialised `argc` that is not 0 was read, or
  `argv` was overrun. -/
  | undefined (quoteError : Bool)
  deriving DecidableEq, Repr

/-- The tokenizing loop of lines 411-425 over the segments from index `i` on; `argc0 j` is
what the uninitialised `argc_list[j]` holds before the call of `parseline_no_subst`.
`none` means that the tokenizer ran out of fuel. -/
def parseStages (argc0 : Nat → Int) : Nat → List (List Char) → Option StageParse
  | _, [] => some (.stages [])
  | i, command :: rest =>
    match parseline_no_subst command with
    | none => none
    | some .overflow => some (.undefined false)
    | some (.missingQuote _) =>
      if argc0 i = 0 then some (.aborted true) else some (.undefined true)
    | some (.done []) => some (.aborted false)
    | some (.done (a :: args)) =>
      match parseStages argc0 (i + 1) rest with
      | none => none
      | some (.stages argvs) => some (.stages ((a :: args) :: argvs))
      | some other => some other

/-- The report of the tokenizer, when it made one. -/
def quoteMessage (quoteError : Bool) : List Action :=
  if quoteError then [.error "Missing closing quote"] else []

/-- The code of the child forked for stage `i` of `n` (lines 456-486). -/
def stageChild (n i : Nat) (argv : List (List Char)) : Child :=
  { stdin := if 0 < i then some ((i - 1) * 2) else none,
    stdout := if i + 1 < n then some (i * 2 + 1) else none,
    closed := List.range (2 * (n - 1)),
    argv := argv,
    message := "Command not found or not executable",
    after := .exits 1 }

/-- Lines 427-500 for the argument vectors of the `n` stages: the pipes are created, one
child per stage is forked, the parent closes every descriptor and waits for every child.
The calls `pipe` and `fork` are taken to succeed. -/
def runPipeline (argvs : List (List (List Char))) : List Action :=
  let n := argvs.length
  (List.range (n - 1)).map Action.pipe
    ++ argvs.enum.map (fun p => Action.fork (stageChild n p.1 p.2))
    ++ (List.range (2 * (n - 1))).map Action.close
    ++ List.replicate n Action.wait

/-- The function `eval_pipe(cmdline)`. `argc0 i` is what the uninitialised `argc_list[i]`
holds. The state of the interpreter is not written. `none` means that `fuel` ran
out. -/
def eval_pipe (run : Runner) (fuel : Nat) (argc0 : Nat → Int) (cmdline : List Char) :
    Option (List Action × Flow) :=
  match replaceCommandSubstitution run fuel cmdline with
  | none => none
  | some (log, .hang) => some (log, .hang)
  -- if (!expanded_cmdline) return;
  | some (log, .null _) => some (log, .returned)
  | some (log, .ok expanded_cmdline) =>
    match splitPipeline (expanded_cmdline.length + 1) expanded_cmdline [] with
    | none => none
    | some commands =>
      match parseStages argc0 0 commands with
      | none => none
      | some (.undefined q) => some (log ++ quoteMessage q, .undefined)
      | some (.aborted q) => some (log ++ quoteMessage q, .returned)
      | some (.stages argvs) => some (log ++ runPipeline argvs, .returned)

/-- The function `eval(cmdline)` on the state `sh`. `argc0` is what the uninitialised
`argc` of `eval` holds, `pipeArgc0 i` what `argc_list[i]` of `eval_pipe` holds. `none`
means that `fuel` ran out. -/
def eval (run : Runner) (fuel : Nat) (argc0 : Int) (pipeArgc0 : Nat → Int) (sh : Shell)
    (cmdline : List Char) : Option EvalResult :=
  -- if (strchr(cmdline, '|') != NULL)
  if '|' ∈ cmdline then
    match eval_pipe run fuel pipeArgc0 cmdline with
    | none => none
    | some (actions, flow) => some { shell := sh, actions := actions, flow := flow }
  else
    match replaceCommandSubstitution run fuel cmdline with
    | none => none
    | some (log, .hang) => some { shell := sh, actions := log, flow := .hang }
    -- if (!first_cmd) return;
    | some (log, .null _) => some { shell := sh, actions := log, flow := .returned }
    | some (log, .ok first_cmd) =>
      match do_variable_substitution sh.env sh.local_vars first_cmd with
      | none => none
      | some final_cmd =>
        match parseline_no_subst final_cmd with
        | none => none
        | some .overflow =>
          some { shell := sh, actions := log, flow := .undefined }
        | some (.missingQuote _) =>
          if argc0 = 0 then
            some { shell := sh,
                   actions := log ++ [.error "Missing closing quote"],
                   flow := .returned }
          else
            some { shell := sh,
                   actions := log ++ [.error "Missing closing quote"],
                   flow := .undefined }
        | some (.done []) =>
          some { shell := sh, actions := log, flow := .returned }
        | some (.done (argv0 :: args)) =>
          let r := evalCommand sh argv0 args
          some { r with actions := log ++ r.actions }

/-! ## Runners used in the statements below -/

/-- A runner whose every output is `n` times the letter `x`. -/
def longRunner (n : Nat) : Runner := fun _ => some (List.replicate n 'x')

/-- The line made of the stage texts `segs` joined by `|`. -/
def pipeLine : List (List Char) → List Char
  | [] => []
  | s :: rest =>
    match rest with
    | [] => s
    | _ :: _ => s ++ '|' :: pipeLine rest

/-- The index in `pipefds` of the read end of pipe `k`: `pipe(pipefds + k * 2)` stores the
read end first. -/
def readEnd (k : Nat) : Nat := 2 * k

/-- The index in `pipefds` of the write end of pipe `k`. -/
def writeEnd (k : Nat) : Nat := 2 * k + 1

/-- Whether an action is a `fork`. -/
def Action.isFork : Action → Bool
  | .fork _ => true
  | _ => false

/-- Whether an action is the creation of a pipe. -/
def Action.isPipe : Action → Bool
  | .pipe _ => true
  | _ => false

/-- The commands handed to `popen` among the actions, in order (`none` for a `NULL`
pointer). -/
def popenArgs (actions : List Action) : List (Option (List Char)) :=
  actions.filterMap (fun a => match a with
    | .popen cmd => some cmd
    | _ => none)

/-! ## Specification-side notions for the Local Variable Store -/

/-- The name of a stored entry: the text before its first `=`. -/
def entryName (entry : List Char) : List Char :=
  entry.takeWhile (fun c => c != '=')

/-- The invariant of the Local Variable Store: every entry has the form `NAME=VALUE`, the
names are pairwise distinct, and there are at most `MAXARGS` entries. -/
def StoreOk (local_vars : List (List Char)) : Prop :=
  (∀ e ∈ local_vars, '=' ∈ e) ∧ (local_vars.map entryName).Nodup
    ∧ local_vars.length ≤ MAXARGS

/-- A store of `n` entries `a=`, `aa=`, `aaa=`, ... with distinct names. -/
def fullStore (n : Nat) : List (List Char) :=
  (List.range n).map (fun i => List.replicate (i + 1) 'a' ++ ['='])

/-- The state after the built-in `local` was run on each of the argument lists `cmds` in
turn (`cmds` holds what follows `local` in each argument vector); `none` when one of the
runs overruns `var_name` or reads a freed entry, after which nothing is known of the state. -/
def runLocals : List (List (List Char)) → Shell → Option Shell
  | [], sh => some sh
  | args :: rest, sh =>
    if (evalLocal sh args).flow = .undefined then none
    else runLocals rest (evalLocal sh args).shell

/-- The characters of names and plain values: letters, digits and the underscore. -/
def isNameChar (c : Char) : Bool :=
  c.isAlphanum || c == '_'
/-! ## Theorems: libc helpers -/

theorem strchr_eq_none {c : Char} {l : List Char} (h : c ∉ l) : strchr c l = none := by
  induction l with
  | nil => rfl
  | cons x xs ih =>
    have hx : x ≠ c := fun e => h (e ▸ List.mem_cons_self _ _)
    have hxs : c ∉ xs := fun e => h (List.mem_cons_of_mem _ e)
    simp [strchr, hx, ih hxs]

theorem strchr_append {c : Char} {a : List Char} (b : List Char) (h : c ∉ a) :
    strchr c (a ++ c :: b) = some (a, b) := by
  induction a with
  | nil => simp [strchr]
  | cons x xs ih =>
    have hx : x ≠ c := fun e => h (e ▸ List.mem_cons_self _ _)
    have hxs : c ∉ xs := fun e => h (List.mem_cons_of_mem _ e)
    simp [strchr, hx, ih hxs]

theorem strchr_some {c : Char} {l a b : List Char} (h : strchr c l = some (a, b)) :
    l = a ++ c :: b ∧ c ∉ a := by
  induction l generalizing a b with
  | nil => simp [strchr] at h
  | cons x xs ih =>
    by_cases hx : x = c
    · simp [strchr, hx] at h
      obtain ⟨rfl, rfl⟩ := h
      simp [hx]
    · cases hr : strchr c xs with
      | none => simp [strchr, hx, hr] at h
      | some r =>
        obtain ⟨a1, b1⟩ := r
        simp [strchr, hx, hr] at h
        obtain ⟨rfl, rfl⟩ := h
        obtain ⟨e, hn⟩ := ih hr
        refine ⟨by simp [e], ?_⟩
        simp only [List.mem_cons, not_or]
        exact ⟨fun e2 => hx e2.symm, hn⟩

theorem strchr_of_mem {c : Char} {l : List Char} (h : c ∈ l) :
    ∃ a b, strchr c l = some (a, b) := by
  cases hr : strchr c l with
  | some r => exact ⟨r.1, r.2, rfl⟩
  | none =>
    exfalso
    induction l with
    | nil => simp at h
    | cons x xs ih =>
      by_cases hx : x = c
      · simp [strchr, hx] at hr
      · cases hr2 : strchr c xs with
        | none =>
          rcases List.mem_cons.1 h with e | e
          · exact hx e.symm
          · exact ih e hr2
        | some r => simp [strchr, hx, hr2] at hr

theorem skipSpaces_cons_ne {c : Char} (l : List Char) (h : c ≠ ' ') :
    skipSpaces (c :: l) = c :: l := by
  simp [skipSpaces, h]

theorem skipSpaces_space (l : List Char) : skipSpaces (' ' :: l) = skipSpaces l := by
  simp [skipSpaces]

theorem skipSpaces_suffix (l : List Char) : skipSpaces l <:+ l := by
  induction l with
  | nil => simp [skipSpaces]
  | cons x xs ih =>
    by_cases hx : x = ' '
    · simp only [skipSpaces, hx, if_true]
      exact ih.trans (List.suffix_cons _ _)
    · simp [skipSpaces, hx]

theorem skipSpaces_head (l : List Char) (c : Char) (r : List Char)
    (h : skipSpaces l = c :: r) : c ≠ ' ' := by
  induction l with
  | nil => simp [skipSpaces] at h
  | cons x xs ih =>
    by_cases hx : x = ' '
    · simp only [skipSpaces, hx, if_true] at h
      exact ih h
    · simp only [skipSpaces, hx, if_false] at h
      simp at h
      exact h.1 ▸ hx

theorem padLine_of_last_ne (l : List Char) (h : l.getLast? ≠ some NL) :
    padLine l = l ++ [' '] := by
  simp [padLine, h]

/-! ## Theorems: tokenizer -/

/-- More fuel does not change a result of the scanning loop. -/
theorem parseLoop_fuel_succ (fuel : Nat) (p : List Char) (argv : List (List Char))
    (r : ParseOutcome) (h : parseLoop fuel p argv = some r) :
    parseLoop (fuel + 1) p argv = some r := by
  induction fuel generalizing p argv with
  | zero => simp [parseLoop] at h
  | succ n ih =>
    cases p with
    | nil => simpa [parseLoop] using h
    | cons c rest =>
      simp only [parseLoop] at h
      rw [parseLoop]
      split at h
      · rename_i hq
        simp only [hq, if_true]
        split at h
        · exact h
        · split at h
          · rename_i hl
            simp only [hl, if_true]
            exact ih _ _ h
          · rename_i hl
            simpa [hl] using h
      · rename_i hq
        simp only [hq, if_false]
        split at h
        · exact h
        · split at h
          · rename_i hl
            simp only [hl, if_true]
            exact ih _ _ h
          · rename_i hl
            simpa [hl] using h

theorem parseLoop_fuel_le {f g : Nat} (hfg : f ≤ g) (p : List Char)
    (argv : List (List Char)) (r : ParseOutcome) (h : parseLoop f p argv = some r) :
    parseLoop g p argv = some r := by
  induction hfg with
  | refl => exact h
  | step _ ih => exact parseLoop_fuel_succ _ _ _ _ ih

theorem parseLoop_nil (fuel : Nat) (argv : List (List Char)) (hl : argv.length < MAXARGS) :
    parseLoop (fuel + 1) [] argv = some (.done argv) := by
  simp [parseLoop, hl]

/-- One iteration on an unquoted word that is followed by a space. -/
theorem parseLoop_word (fuel : Nat) (tok after : List Char) (argv : List (List Char))
    (hne : tok ≠ []) (hsp : ' ' ∉ tok) (hq : QUOTE ∉ tok) (hl : argv.length < MAXARGS) :
    parseLoop (fuel + 1) (tok ++ ' ' :: after) argv
      = parseLoop fuel (skipSpaces after) (argv ++ [tok]) := by
  cases tok with
  | nil => exact absurd rfl hne
  | cons c r =>
    have hc : c ≠ QUOTE := fun e => hq (e ▸ List.mem_cons_self _ _)
    have hs : strchr ' ' (c :: (r ++ ' ' :: after)) = some (c :: r, after) :=
      @strchr_append ' ' (c :: r) after hsp
    show parseLoop (fuel + 1) (c :: (r ++ ' ' :: after)) argv = _
    rw [parseLoop, if_neg hc, hs]
    simp only [hl, if_true]

/-- One iteration on a quoted token. -/
theorem parseLoop_quoted (fuel : Nat) (tok after : List Char) (argv : List (List Char))
    (hq : QUOTE ∉ tok) (hl : argv.length < MAXARGS) :
    parseLoop (fuel + 1) (QUOTE :: (tok ++ QUOTE :: after)) argv
      = parseLoop fuel (skipSpaces after) (argv ++ [tok]) := by
  simp only [parseLoop, if_true, strchr_append after hq, hl]

theorem skipSpaces_quotedRun (v : List (List Char)) :
    skipSpaces (quotedRun v) = quotedRun v := by
  cases v with
  | nil => rfl
  | cons t v => exact skipSpaces_cons_ne _ (by decide)

theorem requote_append_space (v : List (List Char)) (hv : v ≠ []) :
    requote v ++ [' '] = quotedRun v := by
  induction v with
  | nil => exact absurd rfl hv
  | cons t v ih =>
    cases v with
    | nil => simp [requote, quotedRun, List.intercalate]
    | cons u v =>
      have := ih (by simp)
      simp only [requote, List.intercalate, List.map_cons, List.intersperse,
        List.flatten, quotedRun] at this ⊢
      simp only [List.append_assoc, List.cons_append, List.nil_append] at this ⊢
      rw [this]

theorem requote_getLast (v : List (List Char)) : (requote v).getLast? ≠ some NL := by
  rcases List.eq_nil_or_concat v with rfl | ⟨w, t, rfl⟩
  · simp [requote, List.intercalate]
  · intro h
    have h2 : (requote (w ++ [t]) ++ [' ']).dropLast.getLast? = some NL := by
      simpa using h
    rw [requote_append_space _ (by simp)] at h2
    have h3 : ∀ u : List (List Char), quotedRun (u ++ [t])
        = quotedRun u ++ (QUOTE :: (t ++ [QUOTE])) ++ [' '] := by
      intro u
      induction u with
      | nil => simp [quotedRun]
      | cons a u ihu => simp [quotedRun, ihu]
    rw [h3, List.dropLast_concat] at h2
    have h4 : (quotedRun w ++ QUOTE :: (t ++ [QUOTE])).getLast? = some QUOTE := by
      rw [show quotedRun w ++ QUOTE :: (t ++ [QUOTE])
        = (quotedRun w ++ QUOTE :: t) ++ [QUOTE] by simp]
      exact List.getLast?_concat _
    rw [h4] at h2
    exact absurd h2 (by decide)

theorem parseLoop_quotedRun (v : List (List Char)) :
    ∀ (fuel : Nat) (argv : List (List Char)), (∀ t ∈ v, QUOTE ∉ t) →
      argv.length + v.length < MAXARGS → v.length < fuel →
      parseLoop fuel (quotedRun v) argv = some (.done (argv ++ v)) := by
  induction v with
  | nil =>
    intro fuel argv _ hl hf
    obtain ⟨f, rfl⟩ : ∃ f, fuel = f + 1 := ⟨fuel - 1, by omega⟩
    simpa [quotedRun] using parseLoop_nil f argv (by simpa using hl)
  | cons t v ih =>
    intro fuel argv hq hl hf
    obtain ⟨f, rfl⟩ : ∃ f, fuel = f + 1 := ⟨fuel - 1, by omega⟩
    simp only [List.length_cons] at hl hf
    rw [quotedRun, parseLoop_quoted f t _ argv (hq t (List.mem_cons_self _ _)) (by omega),
      skipSpaces_space, skipSpaces_quotedRun,
      ih f (argv ++ [t]) (fun u hu => hq u (List.mem_cons_of_mem _ hu))
        (by simp; omega) (by omega)]
    simp

/-- C1. Quote preservation: for a non-empty word `w` with no space and no single quote
and a text `s` with no single quote, tokenizing `w`, a space, a quote, `s`, a quote
returns normally with exactly the two tokens `w` and `s`. -/
theorem parseline_quote_preserved (w s : List Char) (hw : w ≠ []) (hsp : ' ' ∉ w)
    (hq : QUOTE ∉ w) (hs : QUOTE ∉ s) :
    parseline_no_subst (w ++ ' ' :: QUOTE :: (s ++ [QUOTE])) = some (.done [w, s]) := by
  have hlast : (w ++ ' ' :: QUOTE :: (s ++ [QUOTE])).getLast? ≠ some NL := by
    rw [show w ++ ' ' :: QUOTE :: (s ++ [QUOTE]) = (w ++ ' ' :: QUOTE :: s) ++ [QUOTE] by simp,
      List.getLast?_concat]
    decide
  have hskip : skipSpaces (w ++ ' ' :: QUOTE :: (s ++ [QUOTE]) ++ [' '])
      = w ++ ' ' :: (QUOTE :: (s ++ QUOTE :: [' '])) := by
    cases w with
    | nil => exact absurd rfl hw
    | cons c r =>
      have hc : c ≠ ' ' := fun e => hsp (e ▸ List.mem_cons_self _ _)
      simp [skipSpaces, hc]
  have h3 : parseLoop 3 (w ++ ' ' :: (QUOTE :: (s ++ QUOTE :: [' ']))) []
      = some (.done [w, s]) := by
    rw [parseLoop_word 2 w _ [] hw hsp hq (by decide),
      skipSpaces_cons_ne _ (by decide),
      parseLoop_quoted 1 s _ _ hs (by simp [MAXARGS])]
    exact parseLoop_nil 0 _ (by simp [MAXARGS])
  unfold parseline_no_subst
  simp only [padLine_of_last_ne _ hlast, hskip]
  exact parseLoop_fuel_le (by simp; omega) _ _ _ h3

/-- C1, at the input `echo 'a b'`. -/
theorem parseline_quote_preserved_witness :
    parseline_no_subst "echo 'a b'".toList = some (.done ["echo".toList, "a b".toList]) :=
  parseline_quote_preserved "echo".toList "a b".toList (by decide) (by decide) (by decide)
    (by decide)

/-- C3. Round trip: for an argument vector of fewer than `MAXARGS` tokens without single
quotes, tokenizing its re-quoted form returns exactly the vector (empty tokens and tokens
with spaces or newlines included). -/
theorem parseline_requote_roundtrip (v : List (List Char)) (hlen : v.length < MAXARGS)
    (hq : ∀ t ∈ v, QUOTE ∉ t) :
    parseline_no_subst (requote v) = some (.done v) := by
  unfold parseline_no_subst
  simp only [padLine_of_last_ne _ (requote_getLast v)]
  cases v with
  | nil => decide
  | cons t v =>
    rw [requote_append_space _ (by simp), skipSpaces_quotedRun]
    have := parseLoop_quotedRun (t :: v) ((quotedRun (t :: v)).length + 1) [] hq
      (by simpa using hlen) ?_
    · simpa using this
    · have : ∀ u : List (List Char), u.length ≤ (quotedRun u).length := by
        intro u
        induction u with
        | nil => simp
        | cons a u ih => simp [quotedRun]; omega
      have := this (t :: v)
      omega

/-- C3, at a vector with an empty token, a token with a space and one with a newline. -/
theorem parseline_requote_roundtrip_witness :
    parseline_no_subst (requote [[], "a b".toList, ['x', NL, 'y']])
      = some (.done [[], "a b".toList, ['x', NL, 'y']]) :=
  parseline_requote_roundtrip [[], "a b".toList, ['x', NL, 'y']] (by decide) (by decide)

theorem spaceRuns_nil : spaceRuns [] = [] := by
  simp [spaceRuns, List.splitOn, List.splitOnP_nil]

theorem spaceRuns_space (l : List Char) : spaceRuns (' ' :: l) = spaceRuns l := by
  simp [spaceRuns, List.splitOn, List.splitOnP_cons]

theorem spaceRuns_word (tok after : List Char) (hne : tok ≠ []) (hsp : ' ' ∉ tok) :
    spaceRuns (tok ++ ' ' :: after) = tok :: spaceRuns after := by
  unfold spaceRuns List.splitOn
  have hfirst := @List.splitOnP_first Char (fun x => x == ' ') tok (fun x hx => by
    simp only [beq_iff_eq]
    rintro rfl
    exact hsp hx) ' ' (by simp) after
  rw [hfirst]
  simp [hne]

theorem spaceRuns_skipSpaces (l : List Char) : spaceRuns (skipSpaces l) = spaceRuns l := by
  induction l with
  | nil => rfl
  | cons x xs ih =>
    by_cases hx : x = ' '
    · subst hx
      rw [skipSpaces_space, spaceRuns_space, ih]
    · rw [skipSpaces_cons_ne _ hx]

theorem spaceRuns_concat_space (l : List Char) : spaceRuns (l ++ [' ']) = spaceRuns l := by
  have key : ∀ l : List Char, (l ++ [' ']).splitOnP (fun c => c == ' ')
      = l.splitOnP (fun c => c == ' ') ++ [[]] := by
    intro l
    induction l with
    | nil => simp [List.splitOnP_cons, List.splitOnP_nil]
    | cons x xs ih =>
      rw [List.cons_append, List.splitOnP_cons, List.splitOnP_cons, ih]
      split
      · simp
      · cases h : List.splitOnP (fun c => c == ' ') xs with
        | nil => exact absurd h (List.splitOnP_ne_nil _ _)
        | cons a b => simp [List.modifyHead]
  simp [spaceRuns, List.splitOn, key]

theorem parseLoop_full (fuel : Nat) (c : Char) (rest : List Char) (argv : List (List Char))
    (hc : c ≠ QUOTE) (hl : ¬ argv.length < MAXARGS) :
    parseLoop (fuel + 1) (c :: rest) argv = some .overflow := by
  rw [parseLoop, if_neg hc]
  split <;> simp [hl]

/-- The scanning loop on a quote-free buffer that ends with a space: the words found are
the runs of non-space characters, unless they do not fit in `argv`. -/
theorem parseLoop_spaceRuns (fuel : Nat) :
    ∀ (p : List Char) (argv : List (List Char)), QUOTE ∉ p →
      (p = [] ∨ p.getLast? = some ' ') → p.length < fuel →
      parseLoop fuel (skipSpaces p) argv
        = if argv.length + (spaceRuns p).length < MAXARGS
          then some (.done (argv ++ spaceRuns p)) else some .overflow := by
  induction fuel with
  | zero => intro p argv _ _ hf; omega
  | succ f ih =>
    intro p argv hq hend hf
    cases hsk : skipSpaces p with
    | nil =>
      have h0 : spaceRuns p = [] := by
        rw [← spaceRuns_skipSpaces, hsk, spaceRuns_nil]
      simp [h0, parseLoop]
    | cons c rest =>
      have hsuf : (c :: rest) <:+ p := hsk ▸ skipSpaces_suffix p
      have hc : c ≠ ' ' := skipSpaces_head p c rest hsk
      have hq2 : QUOTE ∉ c :: rest := fun h => hq (hsuf.subset h)
      have hcq : c ≠ QUOTE := fun e => hq2 (e ▸ List.mem_cons_self _ _)
      have hlast : (c :: rest).getLast? = some ' ' := by
        obtain ⟨t, ht⟩ := hsuf
        rcases hend with h | h
        · subst h; simp at ht
        · rw [← ht, List.getLast?_append_of_ne_nil _ (by simp)] at h
          exact h
      have hmem : ' ' ∈ c :: rest := List.mem_of_mem_getLast? hlast
      obtain ⟨tok, after, hs⟩ := strchr_of_mem hmem
      obtain ⟨heq, hnot⟩ := strchr_some hs
      have htok : tok ≠ [] := by
        rintro rfl
        simp at heq
        exact hc heq.1
      have hruns : spaceRuns p = tok :: spaceRuns after := by
        rw [← spaceRuns_skipSpaces, hsk, heq, spaceRuns_word _ _ htok hnot]
      have hlen : (c :: rest).length ≤ p.length := hsuf.length_le
      have hlen2 : (c :: rest).length = tok.length + 1 + after.length := by
        rw [heq]; simp; omega
      by_cases hl : argv.length < MAXARGS
      · have hq3 : QUOTE ∉ tok := fun h => hq2 (heq ▸ List.mem_append_left _ h)
        have hq4 : QUOTE ∉ after := fun h =>
          hq2 (heq ▸ List.mem_append_right _ (List.mem_cons_of_mem _ h))
        have hend2 : after = [] ∨ after.getLast? = some ' ' := by
          by_cases ha : after = []
          · exact Or.inl ha
          · right
            rw [heq, show tok ++ ' ' :: after = (tok ++ [' ']) ++ after by simp,
              List.getLast?_append_of_ne_nil _ ha] at hlast
            exact hlast
        rw [heq, parseLoop_word f tok after argv htok hnot hq3 hl,
          ih after (argv ++ [tok]) hq4 hend2 (by omega), hruns]
        simp only [List.length_append, List.length_cons, List.length_nil]
        have e1 : argv.length + (0 + 1) + (spaceRuns after).length
            = argv.length + ((spaceRuns after).length + 1) := by omega
        rw [e1]
        simp
      · rw [parseLoop_full f c rest argv hcq hl, if_neg (by omega)]

/-- The tokenizer on a line without single quotes: the runs of non-space characters of
the line, when fewer than `MAXARGS` of them; otherwise the scan leaves `argv`. -/
theorem parseline_no_quote (l : List Char) (hq : QUOTE ∉ l) :
    parseline_no_subst l
      = if (spaceRuns (trailingNewlineToSpace l)).length < MAXARGS
        then some (.done (spaceRuns (trailingNewlineToSpace l))) else some .overflow := by
  have hruns : spaceRuns (padLine l) = spaceRuns (trailingNewlineToSpace l) := by
    unfold padLine trailingNewlineToSpace
    split
    · rfl
    · exact spaceRuns_concat_space l
  have hq2 : QUOTE ∉ padLine l := by
    unfold padLine
    split
    · intro h
      rcases List.mem_append.1 h with h | h
      · exact hq (List.dropLast_subset _ h)
      · simp at h; exact absurd h (by decide)
    · intro h
      rcases List.mem_append.1 h with h | h
      · exact hq h
      · simp at h; exact absurd h (by decide)
  have hend : padLine l = [] ∨ (padLine l).getLast? = some ' ' := by
    right
    unfold padLine
    split <;> simp
  unfold parseline_no_subst
  simp only
  rw [parseLoop_spaceRuns _ _ [] hq2 hend (by omega), hruns]
  simp

/-- The tokenizer on a line without single quotes and with fewer than `MAXARGS` runs of
non-space characters returns exactly these runs; no token is empty. -/
theorem parseline_no_quote_runs (l : List Char) (hq : QUOTE ∉ l)
    (hlen : (spaceRuns (trailingNewlineToSpace l)).length < MAXARGS) :
    parseline_no_subst l = some (.done (spaceRuns (trailingNewlineToSpace l)))
      ∧ ∀ t ∈ spaceRuns (trailingNewlineToSpace l), t ≠ [] := by
  refine ⟨by rw [parseline_no_quote l hq, if_pos hlen], ?_⟩
  intro t ht
  simpa using (List.mem_filter.1 ht).2

/-- A line that starts with a single quote and has no other one: the tokenizer takes
the early return after "Missing closing quote" with nothing stored. -/
theorem parseline_unterminated_quote (s : List Char) (hq : QUOTE ∉ s) :
    parseline_no_subst (QUOTE :: s) = some (.missingQuote []) := by
  have hq2 : QUOTE ∉ (padLine (QUOTE :: s)).tail := by
    unfold padLine
    split
    · rename_i hl
      cases s with
      | nil => exact absurd hl (by decide)
      | cons c cs =>
        rw [List.dropLast_cons₂]
        simp only [List.cons_append, List.tail_cons, List.mem_append, List.mem_singleton,
          not_or]
        exact ⟨fun h => hq (List.dropLast_subset _ h), by decide⟩
    · simp only [List.cons_append, List.tail_cons, List.mem_append, List.mem_singleton,
        not_or]
      exact ⟨hq, by decide⟩
  have hhead : ∃ t, padLine (QUOTE :: s) = QUOTE :: t := by
    unfold padLine
    split
    · rename_i hl
      cases s with
      | nil => exact absurd hl (by decide)
      | cons c cs => exact ⟨(c :: cs).dropLast ++ [' '], by rw [List.dropLast_cons₂]; rfl⟩
    · exact ⟨s ++ [' '], rfl⟩
  obtain ⟨t, ht⟩ := hhead
  rw [ht] at hq2
  unfold parseline_no_subst
  simp only [ht]
  rw [skipSpaces_cons_ne _ (by decide), parseLoop, if_pos rfl,
    strchr_eq_none (by simpa using hq2)]

/-- C2. On the line `echo 'abc` (with its newline) the tokenizer takes the early return
after "Missing closing quote": `echo` was stored, and the caller's `argc` is not
written, so it keeps whatever value `argc0` it held before the call, not 0; `eval` is
then a no-op when that value is 0 and reads uninitialised data when it is 7. -/
theorem parseline_missing_quote_argc (argc0 : Int) :
    parseline_no_subst ("echo ".toList ++ QUOTE :: "abc".toList ++ [NL])
        = some (.missingQuote ["echo".toList])
      ∧ (ParseOutcome.missingQuote ["echo".toList]).argcAfter argc0 = some argc0
      ∧ (ParseOutcome.missingQuote ["echo".toList]).argcAfter 7 ≠ some 0
      ∧ (eval echoRunner 1 0 (fun _ => 0) ⟨emptyEnv, [], 0⟩
          ("echo ".toList ++ QUOTE :: "abc".toList ++ [NL])).map (fun r => r.flow)
        = some .returned
      ∧ (eval echoRunner 1 7 (fun _ => 0) ⟨emptyEnv, [], 0⟩
          ("echo ".toList ++ QUOTE :: "abc".toList ++ [NL])).map (fun r => r.flow)
        = some .undefined := by
  refine ⟨by decide, rfl, by decide, by decide, by decide⟩

theorem spaceRuns_manyWords (n : Nat) : spaceRuns (manyWords n) = List.replicate n ['a'] := by
  induction n with
  | zero => exact spaceRuns_nil
  | succ n ih =>
    have := spaceRuns_word ['a'] (manyWords n) (by simp) (by decide)
    simp only [List.cons_append, List.nil_append] at this
    rw [manyWords, this, ih, List.replicate_succ]

theorem manyWords_mem (n : Nat) (c : Char) (h : c ∈ manyWords n) : c = 'a' ∨ c = ' ' := by
  induction n with
  | zero => simp [manyWords] at h
  | succ n ih =>
    simp only [manyWords, List.mem_cons] at h
    rcases h with h | h | h
    · exact Or.inl h
    · exact Or.inr h
    · exact ih h

theorem manyWords_getLast (n : Nat) : (manyWords n).getLast? ≠ some NL := by
  intro h
  rcases manyWords_mem n NL (List.mem_of_mem_getLast? h) with e | e
  · exact absurd e (by decide)
  · exact absurd e (by decide)

/-- C4. A line of `MAXARGS` one-letter words has no single quote and `MAXARGS` runs of
non-space characters, and the tokenizer does not return them: it stores its `NULL`
terminator at `argv[MAXARGS]`, outside the caller's array. -/
theorem parseline_many_words_overflow :
    QUOTE ∉ manyWords MAXARGS
      ∧ spaceRuns (trailingNewlineToSpace (manyWords MAXARGS)) = List.replicate MAXARGS ['a']
      ∧ parseline_no_subst (manyWords MAXARGS) = some .overflow := by
  have hq : QUOTE ∉ manyWords MAXARGS := by
    intro h
    rcases manyWords_mem _ _ h with e | e
    · exact absurd e (by decide)
    · exact absurd e (by decide)
  have ht : trailingNewlineToSpace (manyWords MAXARGS) = manyWords MAXARGS := by
    simp [trailingNewlineToSpace, manyWords_getLast]
  refine ⟨hq, by rw [ht, spaceRuns_manyWords], ?_⟩
  rw [parseline_no_quote _ hq, ht, spaceRuns_manyWords]
  simp

/-! ## Theorems: Variable Expander -/

theorem strtok_r_some {isDelim : Char → Bool} {s tok sp : List Char}
    (h : strtok_r isDelim s = some (tok, sp)) :
    tok ≠ [] ∧ (∀ c ∈ tok, c ∈ s) ∧ (∀ c ∈ sp, c ∈ s) ∧ sp.length < s.length := by
  unfold strtok_r at h
  split at h
  · simp at h
  · rename_i c cs hd
    simp only [Option.some.injEq, Prod.mk.injEq] at h
    obtain ⟨rfl, rfl⟩ := h
    have hsuf : (c :: cs) <:+ s := hd ▸ List.dropWhile_suffix _
    have hc : isDelim c = false := by
      have := List.head_dropWhile_not isDelim s (by rw [hd]; simp)
      simpa [hd] using this
    refine ⟨?_, ?_, ?_, ?_⟩
    · simp [List.takeWhile, hc]
    · intro x hx
      exact hsuf.subset ((List.takeWhile_sublist _).subset hx)
    · intro x hx
      exact hsuf.subset ((List.dropWhile_suffix _).subset (List.mem_of_mem_drop hx))
    · have h1 := hsuf.length_le
      have h2 : ((c :: cs).dropWhile (fun x => !isDelim x)).length ≤ cs.length := by
        rw [List.dropWhile_cons]
        simp only [hc, Bool.not_false, if_true]
        exact (List.dropWhile_suffix _).length_le
      simp only [List.length_drop, List.length_cons] at h1 ⊢
      omega

theorem isVarToken_false_of_not_mem {tok : List Char} (h : '$' ∉ tok) :
    isVarToken tok = false := by
  unfold isVarToken
  split
  · rfl
  · exact absurd (List.mem_cons_self _ _) h
  · rfl

/-- More fuel does not change a result of the expansion loop. -/
theorem substLoop_fuel_succ (env : Env) (lv : List (List Char)) (fuel : Nat)
    (sp cur r : List Char) (h : substLoop env lv fuel sp cur = some r) :
    substLoop env lv (fuel + 1) sp cur = some r := by
  induction fuel generalizing sp cur with
  | zero => simp [substLoop] at h
  | succ n ih =>
    rw [substLoop] at h
    rw [substLoop]
    split at h
    · exact h
    · split at h
      · rename_i hv
        rw [if_pos hv]
        exact ih _ _ h
      · rename_i hv
        rw [if_neg hv]
        exact ih _ _ h

/-- The expansion loop always ends: the tokenizer state gets shorter with every token. -/
theorem substLoop_total (env : Env) (lv : List (List Char)) (fuel : Nat) :
    ∀ sp cur : List Char, sp.length < fuel → ∃ r, substLoop env lv fuel sp cur = some r := by
  induction fuel with
  | zero => intro sp cur h; omega
  | succ n ih =>
    intro sp cur h
    rw [substLoop]
    cases hs : strtok_r isDelim sp with
    | none => exact ⟨cur, rfl⟩
    | some r =>
      obtain ⟨tok, sp2⟩ := r
      have hlen := (strtok_r_some hs).2.2.2
      simp only
      split
      · exact ih _ _ (by omega)
      · exact ih _ _ (by omega)

/-- The Variable Expander returns a string on every input. -/
theorem do_variable_substitution_total (env : Env) (lv : List (List Char))
    (command : List Char) : ∃ r, do_variable_substitution env lv command = some r :=
  substLoop_total env lv _ _ _ (Nat.lt_succ_self _)

theorem substLoop_no_dollar (env : Env) (lv : List (List Char)) (fuel : Nat) :
    ∀ sp cur : List Char, '$' ∉ sp → sp.length < fuel →
      substLoop env lv fuel sp cur = some cur := by
  induction fuel with
  | zero => intro sp cur _ h; omega
  | succ n ih =>
    intro sp cur hd h
    rw [substLoop]
    cases hs : strtok_r isDelim sp with
    | none => rfl
    | some r =>
      obtain ⟨tok, sp2⟩ := r
      obtain ⟨_, htok, hsp, hlen⟩ := strtok_r_some hs
      have hv : isVarToken tok = false :=
        isVarToken_false_of_not_mem (fun hm => hd (htok _ hm))
      simp only [hv]
      exact ih _ _ (fun hm => hd (hsp _ hm)) (by omega)

theorem strstr_self (t : List Char) (ht : t ≠ []) : strstr t t = some ([], []) := by
  cases t with
  | nil => exact absurd rfl ht
  | cons c cs =>
    rw [strstr]
    have : (c :: cs).isPrefixOf (c :: cs) = true := by
      rw [List.isPrefixOf_iff_prefix]
    simp [this]

/-- The store loop on a store with one more entry at its end. -/
theorem lookupLocal_concat (lv : List (List Char)) (entry name : List Char) :
    lookupLocal (lv ++ [entry]) name
      = match strchr '=' entry with
        | none => lookupLocal lv name
        | some (n, v) => if n = name then some v else lookupLocal lv name := by
  simp only [lookupLocal, List.foldl_append, List.foldl_cons, List.foldl_nil]

/-- The one-token string `$NAME` expands to the value lines 527-550 find for NAME. -/
theorem do_variable_substitution_token (env : Env) (lv : List (List Char))
    (name : List Char) (hdelim : ∀ c ∈ name, isDelim c = false)
    (hparen : name.head? ≠ some '(') :
    do_variable_substitution env lv ('$' :: name) = some (varValue env lv name) := by
  have htake : ('$' :: name).takeWhile (fun x => !isDelim x) = '$' :: name := by
    rw [List.takeWhile_eq_self_iff]
    intro c hc
    rcases List.mem_cons.1 hc with rfl | hc
    · decide
    · simp [hdelim c hc]
  have hdrop : ('$' :: name).dropWhile (fun x => !isDelim x) = [] := by
    rw [List.dropWhile_eq_nil_iff]
    intro c hc
    rcases List.mem_cons.1 hc with rfl | hc
    · decide
    · simp [hdelim c hc]
  have htok : strtok_r isDelim ('$' :: name) = some ('$' :: name, []) := by
    have h0 : ('$' :: name).dropWhile isDelim = '$' :: name := by
      rw [List.dropWhile_cons]
      simp [show isDelim '$' = false by decide]
    unfold strtok_r
    rw [h0]
    simp only [htake, hdrop, List.drop_nil]
  have hvar : isVarToken ('$' :: name) = true := by
    cases name with
    | nil => rfl
    | cons c cs =>
      have hc : c ≠ '(' := by
        intro e
        apply hparen
        simp [e]
      unfold isVarToken
      split
      · rename_i heq
        simp at heq
        exact absurd heq.1 hc
      · rfl
      · rename_i h1 h2
        exact absurd rfl (h2 _)
  have hnil : strtok_r isDelim [] = none := rfl
  unfold do_variable_substitution
  simp only [List.length_cons]
  rw [substLoop, htok]
  simp only [hvar, if_true]
  rw [substLoop, hnil]
  simp only [splice, strstr_self _ (List.cons_ne_nil _ _), List.drop_one, List.tail_cons,
    List.nil_append, List.append_nil]

/-- C5. On `a$X $X` with `X=v` in the store, the token `$X` is the second word, and the
expansion in place is `a$X v`; the code returns `av $X`: `strstr` finds the text `$X`
inside the first word and that occurrence is replaced. -/
theorem do_variable_substitution_first_occurrence :
    do_variable_substitution emptyEnv ["X=v".toList] "a$X $X".toList = some "av $X".toList
      ∧ expandInPlace emptyEnv ["X=v".toList] "a$X $X".toList = "a$X v".toList := by
  decide

/-- C7. On `$A $B` with `A=$B` and `B=x` in the store, the value `$B` inserted for the
first token is replaced again when the second token is handled: the code returns
`x $B`, not `$B x`. -/
theorem do_variable_substitution_rescans_value :
    do_variable_substitution emptyEnv ["A=$B".toList, "B=x".toList] "$A $B".toList
        = some "x $B".toList
      ∧ expandInPlace emptyEnv ["A=$B".toList, "B=x".toList] "$A $B".toList
        = "$B x".toList := by
  decide

/-! ## Theorems: Substitution Expander -/

theorem strstr_none_of_not_mem {c : Char} (t : List Char) :
    ∀ hay : List Char, c ∉ hay → strstr hay (c :: t) = none := by
  intro hay
  induction hay with
  | nil => intro _; simp [strstr]
  | cons x xs ih =>
    intro h
    have hx : c ≠ x := fun e => h (e ▸ List.mem_cons_self _ _)
    have hxs : c ∉ xs := fun e => h (List.mem_cons_of_mem _ e)
    rw [strstr, ih hxs]
    simp [List.isPrefixOf, hx]

/-- C8. Identity on text without `$`: the Variable Expander returns the string
unchanged for every environment and store, and the Substitution Expander returns it
unchanged without any call of the runner. -/
theorem expansion_identity_without_dollar (env : Env) (lv : List (List Char))
    (run : Runner) (fuel : Nat) (s : List Char) (h : '$' ∉ s) :
    do_variable_substitution env lv s = some s
      ∧ replaceCommandSubstitution run (fuel + 1) s = some ([], .ok s) := by
  constructor
  · exact substLoop_no_dollar env lv _ s s h (Nat.lt_succ_self _)
  · rw [replaceCommandSubstitution, strstr_none_of_not_mem _ s h]

/-- C8, at the line `echo 'a b' c=d`. -/
theorem expansion_identity_without_dollar_witness :
    do_variable_substitution emptyEnv ["c=x".toList] "echo 'a b' c=d".toList
        = some "echo 'a b' c=d".toList
      ∧ replaceCommandSubstitution echoRunner (0 + 1) "echo 'a b' c=d".toList
        = some ([], .ok "echo 'a b' c=d".toList) :=
  expansion_identity_without_dollar emptyEnv ["c=x".toList] echoRunner 0
    "echo 'a b' c=d".toList (by decide)

/-- C9. On `$(echo a $())` the inner substitution has an empty body and the recursive
call writes its message and returns `NULL`, but the outer call hands that `NULL` to `popen`
and splices what comes back: with a runner that writes nothing for it, the expansion returns
the empty string instead of failing. -/
theorem replaceCommandSubstitution_nested_empty_body :
    replaceCommandSubstitution echoRunner 3 "echo a $()".toList
        = some ([.error "Invalid command substitution"], .null .emptyBody)
      ∧ replaceCommandSubstitution echoRunner 3 "$(echo a $())".toList
        = some ([.error "Invalid command substitution", .popen none], .ok []) := by
  decide

/-- A line whose leftmost `$(` is not closed, or is closed at once: the expansion fails
before the runner is called, and all it does is write its message. -/
theorem replaceCommandSubstitution_leftmost_malformed (run : Runner) (fuel : Nat)
    (line before rest : List Char) (hfind : strstr line ['$', '('] = some (before, rest))
    (hbad : scanParens 1 rest = none ∨ ∃ e, scanParens 1 rest = some ([], e)) :
    ∃ why, why ≠ SubstFailure.popenFailed
      ∧ replaceCommandSubstitution run (fuel + 1) line
        = some ([.error why.message], .null why) := by
  rcases hbad with h | ⟨e, h⟩
  · refine ⟨.unmatched, by decide, ?_⟩
    rw [replaceCommandSubstitution, hfind]
    simp only [h]
  · refine ⟨.emptyBody, by decide, ?_⟩
    rw [replaceCommandSubstitution, hfind]
    simp only [h, if_true]

/-- What a call of the expander can be seen to do: it calls `popen` and writes failure messages,
nothing else; and when it returns `NULL`, the message of that failure is the last thing it
did. -/
theorem replaceCommandSubstitution_log (run : Runner) :
    ∀ (fuel : Nat) (line : List Char) (log : List Action) (e : Expansion),
      replaceCommandSubstitution run fuel line = some (log, e) →
      (∀ a ∈ log, (∃ cmd, a = Action.popen cmd) ∨ ∃ w, a = Action.error (SubstFailure.message w))
        ∧ ∀ why, e = .null why → ∃ front, log = front ++ [Action.error why.message] := by
  intro fuel
  induction fuel with
  | zero => intro line log e h; simp [replaceCommandSubstitution] at h
  | succ fuel ih =>
    intro line log e h
    rw [replaceCommandSubstitution] at h
    cases hs : strstr line ['$', '('] with
    | none =>
      simp only [hs, Option.some.injEq, Prod.mk.injEq] at h
      obtain ⟨rfl, rfl⟩ := h
      exact ⟨by simp, by simp⟩
    | some p =>
      obtain ⟨before, rest⟩ := p
      simp only [hs] at h
      cases hsc : scanParens 1 rest with
      | none =>
        simp only [hsc, Option.some.injEq, Prod.mk.injEq] at h
        obtain ⟨rfl, rfl⟩ := h
        refine ⟨?_, ?_⟩
        · intro a ha
          simp only [List.mem_singleton] at ha
          exact Or.inr ⟨.unmatched, ha⟩
        · intro why hw
          simp only [Expansion.null.injEq] at hw
          subst hw
          exact ⟨[], rfl⟩
      | some q =>
        obtain ⟨body, sub_end⟩ := q
        simp only [hsc] at h
        by_cases hb : body = []
        · simp only [hb, if_true, Option.some.injEq, Prod.mk.injEq] at h
          obtain ⟨rfl, rfl⟩ := h
          refine ⟨?_, ?_⟩
          · intro a ha
            simp only [List.mem_singleton] at ha
            exact Or.inr ⟨.emptyBody, ha⟩
          · intro why hw
            simp only [Expansion.null.injEq] at hw
            subst hw
            exact ⟨[], rfl⟩
        · simp only [hb, if_false] at h
          cases hr1 : replaceCommandSubstitution run fuel body with
          | none => simp [hr1] at h
          | some r1 =>
            obtain ⟨log1, e1⟩ := r1
            obtain ⟨hk1, _⟩ := ih body log1 e1 hr1
            rw [hr1] at h
            have key : ∀ arg : Option (List Char),
                (match run arg with
                  | none =>
                    some (log1 ++ [Action.popen arg,
                      Action.error SubstFailure.popenFailed.message],
                      Expansion.null SubstFailure.popenFailed)
                  | some stream =>
                    match readOutput stream with
                    | none => some (log1 ++ [Action.popen arg], Expansion.hang)
                    | some output =>
                      match replaceCommandSubstitution run fuel
                          (before ++ stripNewline output ++ sub_end) with
                      | none => none
                      | some (log2, r) => some (log1 ++ [Action.popen arg] ++ log2, r))
                  = some (log, e) →
                (∀ a ∈ log, (∃ cmd, a = Action.popen cmd)
                    ∨ ∃ w, a = Action.error (SubstFailure.message w))
                  ∧ ∀ why, e = .null why →
                    ∃ front, log = front ++ [Action.error why.message] := by
              intro arg hk
              cases hrun : run arg with
              | none =>
                simp only [hrun, Option.some.injEq, Prod.mk.injEq] at hk
                obtain ⟨rfl, rfl⟩ := hk
                refine ⟨?_, ?_⟩
                · intro a ha
                  simp only [List.mem_append, List.mem_cons, List.mem_singleton,
                    List.not_mem_nil, or_false] at ha
                  rcases ha with ha | ha | ha
                  · exact hk1 a ha
                  · exact Or.inl ⟨arg, ha⟩
                  · exact Or.inr ⟨.popenFailed, ha⟩
                · intro why hw
                  simp only [Expansion.null.injEq] at hw
                  subst hw
                  exact ⟨log1 ++ [Action.popen arg], by simp⟩
              | some o =>
                simp only [hrun] at hk
                cases hro : readOutput o with
                | none =>
                  simp only [hro, Option.some.injEq, Prod.mk.injEq] at hk
                  obtain ⟨rfl, rfl⟩ := hk
                  refine ⟨?_, by simp⟩
                  intro a ha
                  simp only [List.mem_append, List.mem_singleton] at ha
                  rcases ha with ha | ha
                  · exact hk1 a ha
                  · exact Or.inl ⟨arg, ha⟩
                | some out =>
                  simp only [hro] at hk
                  cases hr2 : replaceCommandSubstitution run fuel
                      (before ++ stripNewline out ++ sub_end) with
                  | none => rw [hr2] at hk; exact absurd hk (by simp)
                  | some r2 =>
                    obtain ⟨log2, e2⟩ := r2
                    obtain ⟨hk2, hl2⟩ := ih _ log2 e2 hr2
                    simp only [hr2, Option.some.injEq, Prod.mk.injEq] at hk
                    obtain ⟨rfl, rfl⟩ := hk
                    refine ⟨?_, ?_⟩
                    · intro a ha
                      simp only [List.mem_append, List.mem_singleton] at ha
                      rcases ha with (ha | ha) | ha
                      · exact hk1 a ha
                      · exact Or.inl ⟨arg, ha⟩
                      · exact hk2 a ha
                    · intro why hw
                      obtain ⟨front, hf⟩ := hl2 why hw
                      exact ⟨log1 ++ [Action.popen arg] ++ front, by rw [hf]; simp⟩
            cases e1 with
            | hang =>
              simp only [Option.some.injEq, Prod.mk.injEq] at h
              obtain ⟨rfl, rfl⟩ := h
              exact ⟨hk1, by simp⟩
            | ok s1 => exact key (some s1) h
            | null w1 => exact key none h

/-- C10, as stated, fails: on `$(echo a) $(echo foo` the expansion fails because of
unbalanced parentheses, and the runner has been invoked for `echo a` before that. -/
theorem replaceCommandSubstitution_runs_before_failure :
    replaceCommandSubstitution echoRunner 3 "$(echo a) $(echo foo".toList
        = some ([.popen (some "echo a".toList),
                 .error "Unmatched parentheses in command substitution"], .null .unmatched)
      ∧ (eval echoRunner 3 0 (fun _ => 0) ⟨emptyEnv, [], 0⟩
          "$(echo a) $(echo foo".toList).map (fun r => r.actions)
        = some [.popen (some "echo a".toList),
                .error "Unmatched parentheses in command substitution"] := by
  decide

/-- C10, amended. For every line on which `replaceCommandSubstitution` fails, `eval` and
`eval_pipe` return at once: they do nothing beyond what the expansion itself did, which is to
call `popen` for the substitutions met before the failure and to write failure messages, the
last of them the message of the failure that ends it; nothing is tokenized or executed and the
state is not changed. When the leftmost `$(` of the line is the one without a matching `)` or
with an empty body, the runner has not been called at all: the message is all there is. -/
theorem eval_failed_substitution (run : Runner) (fuel : Nat) (argc0 : Int)
    (pipeArgc0 : Nat → Int) (sh : Shell) (line : List Char)
    (log : List Action) (why : SubstFailure)
    (hfail : replaceCommandSubstitution run fuel line = some (log, .null why)) :
    eval_pipe run fuel pipeArgc0 line = some (log, .returned)
      ∧ (∃ r, eval run fuel argc0 pipeArgc0 sh line = some r
          ∧ r.actions = log ∧ r.flow = .returned
          ∧ r.shell.env = sh.env ∧ r.shell.local_vars = sh.local_vars
          ∧ r.shell.exit_status = sh.exit_status)
      ∧ (∀ a ∈ log, (∃ cmd, a = Action.popen cmd)
          ∨ ∃ w, a = Action.error (SubstFailure.message w))
      ∧ (∃ front, log = front ++ [Action.error why.message])
      ∧ (∀ before rest, strstr line ['$', '('] = some (before, rest) →
          (scanParens 1 rest = none ∨ ∃ e, scanParens 1 rest = some ([], e)) →
          log = [Action.error why.message] ∧ why ≠ .popenFailed) := by
  have hp : eval_pipe run fuel pipeArgc0 line = some (log, .returned) := by
    unfold eval_pipe
    rw [hfail]
  obtain ⟨hkinds, hlast⟩ := replaceCommandSubstitution_log run fuel line log _ hfail
  refine ⟨hp, ?_, hkinds, hlast why rfl, ?_⟩
  · refine ⟨{ shell := sh, actions := log, flow := .returned }, ?_, rfl, rfl, rfl, rfl, rfl⟩
    unfold eval
    by_cases hbar : '|' ∈ line
    · rw [if_pos hbar, hp]
    · rw [if_neg hbar, hfail]
  · intro before rest hfind hbad
    cases fuel with
    | zero => simp [replaceCommandSubstitution] at hfail
    | succ f =>
      obtain ⟨w2, hne, hr⟩ :=
        replaceCommandSubstitution_leftmost_malformed run f line before rest hfind hbad
      rw [hr] at hfail
      simp only [Option.some.injEq, Prod.mk.injEq, Expansion.null.injEq] at hfail
      obtain ⟨rfl, rfl⟩ := hfail
      exact ⟨rfl, hne⟩

/-- C10 amended, at the line `$(echo foo`, where the message is all that `eval` and `eval_pipe`
do, and at the line `$(echo a $()) $(`, where the recursive call on `echo a $()` writes its
message, `popen` is called with the `NULL` it returned, and the rest ` $(` then fails. -/
theorem eval_failed_substitution_witness :
    eval_pipe echoRunner 1 (fun _ => 0) "$(echo foo".toList
        = some ([.error "Unmatched parentheses in command substitution"], .returned)
      ∧ (∃ r, eval echoRunner 1 0 (fun _ => 0) ⟨emptyEnv, [], 0⟩ "$(echo foo".toList = some r
          ∧ r.actions = [.error "Unmatched parentheses in command substitution"]
          ∧ r.flow = .returned
          ∧ r.shell.env = emptyEnv ∧ r.shell.local_vars = []
          ∧ r.shell.exit_status = 0)
      ∧ (∃ r, eval echoRunner 3 0 (fun _ => 0) ⟨emptyEnv, [], 0⟩ "$(echo a $()) $(".toList
            = some r
          ∧ r.actions = [.error "Invalid command substitution", .popen none,
              .error "Unmatched parentheses in command substitution"]
          ∧ r.flow = .returned
          ∧ r.shell.env = emptyEnv ∧ r.shell.local_vars = []
          ∧ r.shell.exit_status = 0) :=
  ⟨(eval_failed_substitution echoRunner 1 0 (fun _ => 0) ⟨emptyEnv, [], 0⟩
      "$(echo foo".toList [.error "Unmatched parentheses in command substitution"]
      .unmatched (by decide)).1,
    (eval_failed_substitution echoRunner 1 0 (fun _ => 0) ⟨emptyEnv, [], 0⟩
      "$(echo foo".toList [.error "Unmatched parentheses in command substitution"]
      .unmatched (by decide)).2.1,
    (eval_failed_substitution echoRunner 3 0 (fun _ => 0) ⟨emptyEnv, [], 0⟩
      "$(echo a $()) $(".toList
      [.error "Invalid command substitution", .popen none,
        .error "Unmatched parentheses in command substitution"]
      .unmatched (by decide)).2.1⟩

/-! ## Theorems: the capture of a command's output -/

theorem fgets_append (k : Nat) (s : List Char) : (fgets k s).1 ++ (fgets k s).2 = s := by
  induction k generalizing s with
  | zero => simp [fgets]
  | succ k ih =>
    cases s with
    | nil => simp [fgets]
    | cons c cs =>
      rw [fgets]
      split
      · rfl
      · simp [ih cs]

theorem fgets_length_le (k : Nat) (s : List Char) : (fgets k s).1.length ≤ k := by
  induction k generalizing s with
  | zero => simp [fgets]
  | succ k ih =>
    cases s with
    | nil => simp [fgets]
    | cons c cs =>
      rw [fgets]
      split
      · simp
      · simpa using ih cs

theorem fgets_length_pos (k : Nat) (c : Char) (cs : List Char) :
    1 ≤ (fgets (k + 1) (c :: cs)).1.length := by
  rw [fgets]
  split <;> simp

/-- The reading loop in closed form: the whole output of the child when it is shorter
than `MAXLINE - 1` characters, and no end otherwise. -/
theorem readLoop_eq (fuel : Nat) :
    ∀ output stream : List Char, stream.length < fuel → output.length ≤ MAXLINE - 1 →
      readLoop fuel output stream
        = if output.length + stream.length < MAXLINE - 1 then some (output ++ stream)
          else none := by
  induction fuel with
  | zero => intro _ _ h; omega
  | succ f ih =>
    intro output stream hf hout
    simp only [MAXLINE] at hout
    cases stream with
    | nil =>
      rw [readLoop]
      simp only [MAXLINE, List.length_nil, Nat.add_zero, List.append_nil]
      by_cases hfull : 1024 - output.length ≤ 1
      · rw [if_pos hfull, if_neg (by omega)]
      · rw [if_neg hfull, if_pos (by omega)]
    | cons c cs =>
      rw [readLoop]
      simp only [MAXLINE]
      by_cases hfull : 1024 - output.length ≤ 1
      · rw [if_pos hfull, if_neg (by simp only [List.length_cons]; omega)]
      · rw [if_neg hfull]
        obtain ⟨k, hk⟩ : ∃ k, 1024 - output.length - 1 = k + 1 :=
          ⟨1024 - output.length - 2, by omega⟩
        have happ := fgets_append (k + 1) (c :: cs)
        have hle := fgets_length_le (k + 1) (c :: cs)
        have hpos := fgets_length_pos k c cs
        have hlen : (fgets (k + 1) (c :: cs)).1.length + (fgets (k + 1) (c :: cs)).2.length
            = (c :: cs).length := by
          rw [← List.length_append, happ]
        rw [hk, ih _ _ (by simp only [List.length_cons] at hf hlen; omega)
          (by simp only [MAXLINE, List.length_append]; omega)]
        simp only [MAXLINE, List.length_append, List.append_assoc, happ]
        have e : output.length + (fgets (k + 1) (c :: cs)).1.length
            + (fgets (k + 1) (c :: cs)).2.length = output.length + (c :: cs).length := by
          omega
        rw [e]

/-- What is captured from a child that writes `stream`. -/
theorem readOutput_eq (stream : List Char) :
    readOutput stream = if stream.length < MAXLINE - 1 then some stream else none := by
  unfold readOutput
  rw [readLoop_eq _ _ _ (Nat.lt_succ_self _) (by simp)]
  simp

/-! ## Theorems: a line with an unclosed `$(` is never expanded to a string -/

theorem strstr_some {hay needle b r : List Char} (h : strstr hay needle = some (b, r)) :
    hay = b ++ needle ++ r := by
  induction hay generalizing b r with
  | nil =>
    rw [strstr] at h
    split at h
    · rename_i hn
      simp only [Option.some.injEq, Prod.mk.injEq] at h
      obtain ⟨rfl, rfl⟩ := h
      simp [hn]
    · simp at h
  | cons c cs ih =>
    rw [strstr] at h
    split at h
    · rename_i hp
      simp only [Option.some.injEq, Prod.mk.injEq] at h
      obtain ⟨rfl, rfl⟩ := h
      rw [List.isPrefixOf_iff_prefix] at hp
      obtain ⟨t, ht⟩ := hp
      rw [← ht]
      simp
    · split at h
      · simp at h
      · rename_i b0 r0 hs
        simp only [Option.some.injEq, Prod.mk.injEq] at h
        obtain ⟨rfl, rfl⟩ := h
        rw [ih hs]
        simp

theorem strstr_leftmost {hay needle b r : List Char} (h : strstr hay needle = some (b, r)) :
    ∀ b2 r2 : List Char, hay = b2 ++ needle ++ r2 → b.length ≤ b2.length := by
  induction hay generalizing b r with
  | nil =>
    intro b2 r2 _
    rw [strstr] at h
    split at h
    · simp only [Option.some.injEq, Prod.mk.injEq] at h
      obtain ⟨rfl, rfl⟩ := h
      simp
    · simp at h
  | cons c cs ih =>
    intro b2 r2 he
    rw [strstr] at h
    split at h
    · simp only [Option.some.injEq, Prod.mk.injEq] at h
      obtain ⟨rfl, rfl⟩ := h
      simp
    · rename_i hp
      split at h
      · simp at h
      · rename_i b0 r0 hs
        simp only [Option.some.injEq, Prod.mk.injEq] at h
        obtain ⟨rfl, rfl⟩ := h
        cases b2 with
        | nil =>
          exfalso
          apply hp
          rw [List.isPrefixOf_iff_prefix]
          exact ⟨r2, by simpa using he.symm⟩
        | cons x b3 =>
          simp only [List.cons_append, List.cons.injEq] at he
          have := ih hs b3 r2 (by simpa using he.2)
          simp only [List.length_cons]
          omega

theorem strstr_of_occurrence (needle : List Char) (x s : List Char) :
    ∃ b r, strstr (x ++ needle ++ s) needle = some (b, r) := by
  induction x with
  | nil =>
    cases hh : needle ++ s with
    | nil =>
      have hn : needle = [] := (List.append_eq_nil.1 hh).1
      have hs : s = [] := (List.append_eq_nil.1 hh).2
      exact ⟨[], [], by simp [strstr, hn, hs]⟩
    | cons c cs =>
      refine ⟨[], (c :: cs).drop needle.length, ?_⟩
      have hp : needle.isPrefixOf (c :: cs) = true := by
        rw [List.isPrefixOf_iff_prefix, ← hh]
        exact List.prefix_append _ _
      simp only [List.nil_append, hh]
      rw [strstr, if_pos hp]
  | cons c cs ih =>
    obtain ⟨b, r, hbr⟩ := ih
    by_cases hp : needle.isPrefixOf (c :: (cs ++ needle ++ s)) = true
    · exact ⟨[], _, by
        show strstr (c :: (cs ++ needle ++ s)) needle = _
        rw [strstr, if_pos hp]⟩
    · exact ⟨c :: b, r, by
        show strstr (c :: (cs ++ needle ++ s)) needle = _
        rw [strstr, if_neg hp, hbr]⟩

theorem scanParens_none_succ (s : List Char) :
    ∀ d : Nat, scanParens d s = none → scanParens (d + 1) s = none := by
  induction s with
  | nil => intro d _; rfl
  | cons c cs ih =>
    intro d h
    rw [scanParens] at h ⊢
    by_cases ho : c = '('
    · simp only [ho, if_true] at h ⊢
      simp only [Nat.add_one_ne_zero, if_false] at h ⊢
      cases hr : scanParens (d + 1) cs with
      | none => simp [ih _ hr]
      | some p => simp [hr] at h
    · by_cases hc : c = ')'
      · have hne : (')' : Char) ≠ '(' := by decide
        simp only [hc, hne, if_true, if_false] at h ⊢
        cases d with
        | zero => simp at h
        | succ e =>
          simp only [Nat.add_sub_cancel] at h ⊢
          cases e with
          | zero => simp at h
          | succ e2 =>
            simp only [Nat.add_one_ne_zero, if_false] at h ⊢
            cases hr : scanParens (e2 + 1) cs with
            | none => simp [ih _ hr]
            | some p => simp [hr] at h
      · simp only [ho, hc, if_false] at h ⊢
        cases d with
        | zero => simp at h
        | succ e =>
          simp only [Nat.add_one_ne_zero, if_false] at h ⊢
          cases hr : scanParens (e + 1) cs with
          | none => simp [ih _ hr]
          | some p => simp [hr] at h

theorem scanParens_none_of_pos (s : List Char) (h : scanParens 1 s = none) :
    ∀ d : Nat, 1 ≤ d → scanParens d s = none := by
  intro d hd
  induction d with
  | zero => omega
  | succ e ih =>
    cases e with
    | zero => exact h
    | succ e2 => exact scanParens_none_succ s _ (ih (by omega))

/-- A scan that starts before an unclosed `$(` and finds its closing parenthesis finds it
before that `$(`. -/
theorem scanParens_before_unclosed (s : List Char) (hs : scanParens 1 s = none) :
    ∀ (r : List Char) (d : Nat) (body e : List Char), 1 ≤ d →
      scanParens d (r ++ '$' :: '(' :: s) = some (body, e) →
      ∃ r2, e = r2 ++ '$' :: '(' :: s := by
  intro r
  induction r with
  | nil =>
    intro d body e hd h
    exfalso
    have h2 : scanParens (d + 1) s = none := scanParens_none_of_pos s hs _ (by omega)
    have hd0 : d ≠ 0 := by omega
    simp only [List.nil_append] at h
    rw [scanParens] at h
    simp only [show ('$' : Char) ≠ '(' by decide, show ('$' : Char) ≠ ')' by decide,
      if_false, hd0] at h
    rw [scanParens] at h
    simp only [if_true, Nat.add_one_ne_zero, if_false, h2] at h
    simp at h
  | cons c cs ih =>
    intro d body e hd h
    simp only [List.cons_append] at h
    rw [scanParens] at h
    generalize (if c = '(' then d + 1 else if c = ')' then d - 1 else d) = d2 at h
    by_cases h0 : d2 = 0
    · simp only [h0, if_true, Option.some.injEq, Prod.mk.injEq] at h
      exact ⟨cs, h.2.symm⟩
    · simp only [h0, if_false] at h
      cases hrec : scanParens d2 (cs ++ '$' :: '(' :: s) with
      | none => simp [hrec] at h
      | some p =>
        obtain ⟨b0, e0⟩ := p
        simp only [hrec, Option.some.injEq, Prod.mk.injEq] at h
        obtain ⟨_, rfl⟩ := h
        exact ih _ _ _ (by omega) hrec

theorem unclosed_decompose (s : List Char) :
    ∀ b x r : List Char, b ++ '$' :: '(' :: r = x ++ '$' :: '(' :: s → b.length ≤ x.length →
      r = s ∨ ∃ r2, r = r2 ++ '$' :: '(' :: s := by
  intro b
  induction b with
  | nil =>
    intro x r h _
    cases x with
    | nil => left; simpa using h
    | cons a x1 =>
      cases x1 with
      | nil =>
        exfalso
        simp only [List.nil_append, List.cons_append, List.cons.injEq] at h
        exact absurd h.2.1 (by decide)
      | cons a2 x2 =>
        right
        simp only [List.nil_append, List.cons_append, List.cons.injEq] at h
        exact ⟨x2, h.2.2⟩
  | cons c b1 ih =>
    intro x r h hl
    cases x with
    | nil => simp at hl
    | cons a x1 =>
      simp only [List.cons_append, List.cons.injEq] at h
      exact ih x1 r h.2 (by simpa using hl)

/-- A line that has a `$(` without a matching `)` is never expanded to a string: whatever
the runner answers, the call fails, or does not end. -/
theorem replaceCommandSubstitution_unclosed (run : Runner) (fuel : Nat) :
    ∀ line x s : List Char, line = x ++ '$' :: '(' :: s → scanParens 1 s = none →
      ∀ (log : List Action) (out : List Char),
        replaceCommandSubstitution run fuel line ≠ some (log, .ok out) := by
  induction fuel with
  | zero => intro line x s _ _ log out; simp [replaceCommandSubstitution]
  | succ f ih =>
    intro line x s hline hs log out
    obtain ⟨b, r, hbr⟩ := strstr_of_occurrence ['$', '('] x s
    have hline2 : line = x ++ ['$', '('] ++ s := by simp [hline]
    rw [← hline2] at hbr
    have hdec := strstr_some hbr
    have hleft := strstr_leftmost hbr x s hline2
    have hcases := unclosed_decompose s b x r (by
      rw [← hline, hdec]; simp) hleft
    rw [replaceCommandSubstitution, hbr]
    simp only
    cases hsc : scanParens 1 r with
    | none => simp
    | some p =>
      obtain ⟨body, e⟩ := p
      rcases hcases with rfl | ⟨r2, rfl⟩
      · rw [hs] at hsc
        simp at hsc
      · obtain ⟨r3, rfl⟩ := scanParens_before_unclosed s hs r2 1 body e (le_refl _) hsc
        simp only
        split
        · simp
        · cases hinn : replaceCommandSubstitution run f body with
          | none => simp
          | some q =>
            obtain ⟨log1, inner⟩ := q
            have hnext : ∀ (arg : Option (List Char)),
                (match run arg with
                  | none =>
                    some (log1 ++ [Action.popen arg,
                      Action.error SubstFailure.popenFailed.message],
                      Expansion.null SubstFailure.popenFailed)
                  | some stream =>
                    match readOutput stream with
                    | none => some (log1 ++ [Action.popen arg], Expansion.hang)
                    | some output =>
                      match replaceCommandSubstitution run f
                          (b ++ stripNewline output ++ (r3 ++ '$' :: '(' :: s)) with
                      | none => none
                      | some (log2, r) => some (log1 ++ [Action.popen arg] ++ log2, r))
                  ≠ some (log, Expansion.ok out) := by
              intro arg
              cases hrun : run arg with
              | none => simp
              | some stream =>
                simp only
                cases hro : readOutput stream with
                | none => simp
                | some output =>
                  simp only
                  cases hrec : replaceCommandSubstitution run f
                      (b ++ stripNewline output ++ (r3 ++ '$' :: '(' :: s)) with
                  | none => simp
                  | some q2 =>
                    obtain ⟨log2, r4⟩ := q2
                    simp only [ne_eq, Option.some.injEq, Prod.mk.injEq, not_and]
                    rintro - rfl
                    exact ih _ (b ++ stripNewline output ++ r3) s (by simp) hs _ _ hrec
            cases inner with
            | ok t => exact hnext (some t)
            | null w => exact hnext none
            | hang => simp

/-! ## Theorems: one substitution step -/

theorem strstr_none_of_not_infix {hay needle : List Char} (h : ¬ needle <:+: hay) :
    strstr hay needle = none := by
  cases hs : strstr hay needle with
  | none => rfl
  | some p =>
    exfalso
    obtain ⟨b, r⟩ := p
    exact h ⟨b, r, (strstr_some hs).symm⟩

theorem strstr_none_of_not_mem_paren {hay : List Char} (h : '(' ∉ hay) :
    strstr hay ['$', '('] = none := by
  apply strstr_none_of_not_infix
  rintro ⟨b, r, e⟩
  apply h
  rw [← e]
  simp

/-- The leftmost `$(` of a string whose part before a `$(` has none. -/
theorem strstr_subst_leftmost (pre rest : List Char) (hpre : ¬ ['$', '('] <:+: pre) :
    strstr (pre ++ '$' :: '(' :: rest) ['$', '('] = some (pre, rest) := by
  obtain ⟨b, r, hbr⟩ := strstr_of_occurrence ['$', '('] pre rest
  have e0 : pre ++ ['$', '('] ++ rest = pre ++ '$' :: '(' :: rest := by simp
  rw [e0] at hbr
  have hdec := strstr_some hbr
  have hleft := strstr_leftmost hbr pre rest e0.symm
  have hdec2 : b ++ '$' :: '(' :: r = pre ++ '$' :: '(' :: rest := by
    rw [hdec]; simp
  rcases unclosed_decompose rest b pre r hdec2 hleft with h | ⟨r2, h⟩
  · subst h
    have : b = pre := List.append_cancel_right hdec2
    rw [hbr, this]
  · exfalso
    subst h
    have h3 : b ++ '$' :: '(' :: r2 ++ '$' :: '(' :: rest = pre ++ '$' :: '(' :: rest := by
      simpa using hdec2
    have h4 : b ++ '$' :: '(' :: r2 = pre := List.append_cancel_right h3
    exact hpre ⟨b, r2, by rw [← h4]; simp⟩

theorem scanParens_skip (x : List Char) (ho : '(' ∉ x) (hc : ')' ∉ x) :
    ∀ (rest : List Char) (d : Nat), 1 ≤ d →
      scanParens d (x ++ rest)
        = match scanParens d rest with
          | none => none
          | some (body, e) => some (x ++ body, e) := by
  induction x with
  | nil =>
    intro rest d _
    simp only [List.nil_append]
    cases hsc : scanParens d rest with
    | none => rfl
    | some p => rfl
  | cons c cs ih =>
    intro rest d hd
    have hc1 : c ≠ '(' := fun e => ho (e ▸ List.mem_cons_self _ _)
    have hc2 : c ≠ ')' := fun e => hc (e ▸ List.mem_cons_self _ _)
    have hd0 : d ≠ 0 := by omega
    rw [List.cons_append, scanParens]
    simp only [hc1, hc2, if_false, hd0]
    rw [ih (fun h => ho (List.mem_cons_of_mem _ h)) (fun h => hc (List.mem_cons_of_mem _ h))
      rest d hd]
    cases hsc : scanParens d rest with
    | none => rfl
    | some p => rfl

theorem scanParens_close_one (rest : List Char) :
    scanParens 1 (')' :: rest) = some ([], rest) := by
  rw [scanParens]
  simp

/-- The scan over a body without parentheses ends at the first `)`. -/
theorem scanParens_simple (cmd suf : List Char) (ho : '(' ∉ cmd) (hc : ')' ∉ cmd) :
    scanParens 1 (cmd ++ ')' :: suf) = some (cmd, suf) := by
  rw [scanParens_skip cmd ho hc _ 1 (le_refl _), scanParens_close_one]
  simp

/-- One iteration of the loop of `replaceCommandSubstitution` on the leftmost `$(`, when
the recursive call on the body returns a string and the captured output fits the
buffer: the rest of the call is the call on the spliced string. -/
theorem replaceCommandSubstitution_iter (run : Runner) (fuel : Nat)
    (pre rest body suf s o : List Char) (log1 : List Action)
    (hpre : ¬ ['$', '('] <:+: pre) (hscan : scanParens 1 rest = some (body, suf))
    (hne : body ≠ [])
    (hinner : replaceCommandSubstitution run fuel body = some (log1, .ok s))
    (hrun : run (some s) = some o) (hlen : o.length < MAXLINE - 1) :
    replaceCommandSubstitution run (fuel + 1) (pre ++ '$' :: '(' :: rest)
      = match replaceCommandSubstitution run fuel (pre ++ stripNewline o ++ suf) with
        | none => none
        | some (log2, r) => some (log1 ++ [.popen (some s)] ++ log2, r) := by
  rw [replaceCommandSubstitution, strstr_subst_leftmost pre rest hpre]
  simp only [hscan, hne, if_false, hinner, hrun, readOutput_eq, hlen, if_true]

/-- The same iteration when the captured output does not fit the buffer. -/
theorem replaceCommandSubstitution_iter_hang (run : Runner) (fuel : Nat)
    (pre rest body suf s o : List Char) (log1 : List Action)
    (hpre : ¬ ['$', '('] <:+: pre) (hscan : scanParens 1 rest = some (body, suf))
    (hne : body ≠ [])
    (hinner : replaceCommandSubstitution run fuel body = some (log1, .ok s))
    (hrun : run (some s) = some o) (hlen : ¬ o.length < MAXLINE - 1) :
    replaceCommandSubstitution run (fuel + 1) (pre ++ '$' :: '(' :: rest)
      = some (log1 ++ [.popen (some s)], .hang) := by
  rw [replaceCommandSubstitution, strstr_subst_leftmost pre rest hpre]
  simp only [hscan, hne, if_false, hinner, hrun, readOutput_eq, hlen]

/-- A string without `$(` is returned as it is, with no call of the runner. -/
theorem replaceCommandSubstitution_plain (run : Runner) (fuel : Nat) (s : List Char)
    (h : ¬ ['$', '('] <:+: s) :
    replaceCommandSubstitution run (fuel + 1) s = some ([], .ok s) := by
  rw [replaceCommandSubstitution, strstr_none_of_not_infix h]

theorem not_infix_of_not_mem_paren {s : List Char} (h : '(' ∉ s) : ¬ ['$', '('] <:+: s := by
  rintro ⟨b, r, e⟩
  apply h
  rw [← e]
  simp

theorem not_infix_of_not_mem_dollar {s : List Char} (h : '$' ∉ s) :
    ¬ ['$', '('] <:+: s := by
  rintro ⟨b, r, e⟩
  apply h
  rw [← e]
  simp

/-- A single substitution whose captured output is shorter than `MAXLINE - 1` characters:
the output, less one trailing newline, replaces `$(cmd)` where it stands. -/
theorem replaceCommandSubstitution_single (run : Runner) (fuel : Nat)
    (pre cmd suf o : List Char) (hpre : ¬ ['$', '('] <:+: pre) (hne : cmd ≠ [])
    (ho : '(' ∉ cmd) (hc : ')' ∉ cmd) (hrun : run (some cmd) = some o)
    (hlen : o.length < MAXLINE - 1)
    (hclean : ¬ ['$', '('] <:+: pre ++ stripNewline o ++ suf) :
    replaceCommandSubstitution run (fuel + 2) (pre ++ '$' :: '(' :: (cmd ++ ')' :: suf))
      = some ([.popen (some cmd)], .ok (pre ++ stripNewline o ++ suf)) := by
  rw [replaceCommandSubstitution_iter run (fuel + 1) pre (cmd ++ ')' :: suf) cmd suf cmd o []
    hpre (scanParens_simple cmd suf ho hc) hne
    (replaceCommandSubstitution_plain run fuel cmd (not_infix_of_not_mem_paren ho)) hrun hlen,
    replaceCommandSubstitution_plain run fuel _ hclean]
  rfl

theorem stripNewline_concat (o : List Char) : stripNewline (o ++ [NL]) = o := by
  simp [stripNewline]

theorem stripNewline_of_last_ne (o : List Char) (h : o.getLast? ≠ some NL) :
    stripNewline o = o := by
  simp [stripNewline, h]

/-- C12. With a runner whose output is 1023 letters, shorter than `MAXLINE`, the
expansion of `$(c)` runs `c` and then never stops reading: the buffer is full, `fgets` is
called with room for one byte, stores the terminator and returns its buffer again and
again. No string is returned. -/
theorem replaceCommandSubstitution_full_buffer :
    (List.replicate 1023 'x').length < MAXLINE
      ∧ replaceCommandSubstitution (longRunner 1023) 2 "$(c)".toList
        = some ([.popen (some "c".toList)], .hang) := by
  refine ⟨by rw [List.length_replicate]; decide, ?_⟩
  exact replaceCommandSubstitution_iter_hang (longRunner 1023) 1 [] "c)".toList "c".toList []
    "c".toList (List.replicate 1023 'x') [] (by decide) (by decide) (by decide)
    (by decide) rfl (by rw [List.length_replicate]; decide)

/-- C14. On `echo hi || cat` the segment between the two bars is empty, and the pipeline
is not aborted: `strtok` skips the empty segment, one pipe is created and the two stages
`echo hi` and `cat` are forked. On `echo hi ||` without a newline the stage `echo hi` is
forked. With its newline, `echo hi ||` executes nothing, because the segment that holds
the newline has no token. -/
theorem eval_pipe_empty_segment_skipped :
    eval_pipe echoRunner 1 (fun _ => 0) "echo hi || cat\n".toList
        = some ([.pipe 0,
                 .fork ⟨none, some 1, [0, 1], ["echo".toList, "hi".toList],
                   "Command not found or not executable", .exits 1⟩,
                 .fork ⟨some 0, none, [0, 1], ["cat".toList],
                   "Command not found or not executable", .exits 1⟩,
                 .close 0, .close 1, .wait, .wait], .returned)
      ∧ eval_pipe echoRunner 1 (fun _ => 0) "echo hi ||".toList
        = some ([.fork ⟨none, none, [], ["echo".toList, "hi".toList],
                   "Command not found or not executable", .exits 1⟩,
                 .wait], .returned)
      ∧ eval_pipe echoRunner 1 (fun _ => 0) "echo hi ||\n".toList = some ([], .returned) := by
  decide

/-- C15. On `echo $X | cat` with `X=v` in the store, `eval` hands the line to `eval_pipe`,
which expands substitutions only: the first stage is executed with the argument `$X`,
not `v`. Without the pipe, `echo $X` is executed with the argument `v`. -/
theorem eval_pipe_no_variable_expansion :
    (eval echoRunner 1 0 (fun _ => 0) ⟨emptyEnv, ["X=v".toList], 0⟩
        "echo $X | cat\n".toList).map (fun r => r.actions)
        = some [.pipe 0,
                .fork ⟨none, some 1, [0, 1], ["echo".toList, "$X".toList],
                  "Command not found or not executable", .exits 1⟩,
                .fork ⟨some 0, none, [0, 1], ["cat".toList],
                  "Command not found or not executable", .exits 1⟩,
                .close 0, .close 1, .wait, .wait]
      ∧ (eval echoRunner 1 0 (fun _ => 0) ⟨emptyEnv, ["X=v".toList], 0⟩
          "echo $X\n".toList).map (fun r => r.actions)
        = some [.fork ⟨none, none, [], ["echo".toList, "v".toList],
                  "Command not found or not executable", .returnsToCaller⟩,
                .wait] := by
  decide

/-- C18. On the line `nosuchprogram` the single-command executor forks a child that,
when `execvp` fails, writes its message, sets `exit_status` and returns from `eval` to
the read loop instead of terminating; the child of a pipeline stage calls `exit(1)`. -/
theorem eval_child_returns_after_exec_failure :
    (eval echoRunner 1 0 (fun _ => 0) ⟨emptyEnv, [], 0⟩
        "nosuchprogram\n".toList).map (fun r => (r.actions, r.flow))
        = some ([.fork ⟨none, none, [], ["nosuchprogram".toList],
                   "Command not found or not executable", .returnsToCaller⟩,
                 .wait], .returned)
      ∧ eval_pipe echoRunner 1 (fun _ => 0) "nosuchprogram | cat\n".toList
        = some ([.pipe 0,
                 .fork ⟨none, some 1, [0, 1], ["nosuchprogram".toList],
                   "Command not found or not executable", .exits 1⟩,
                 .fork ⟨some 0, none, [0, 1], ["cat".toList],
                   "Command not found or not executable", .exits 1⟩,
                 .close 0, .close 1, .wait, .wait], .returned) := by
  decide

/-! ## Theorems: the Pipeline Builder -/

theorem strtok_bar_cons (seg more : List Char) (hne : seg ≠ []) (hbar : '|' ∉ seg) :
    strtok_r (fun c => c == '|') (seg ++ '|' :: more) = some (seg, more) := by
  cases seg with
  | nil => exact absurd rfl hne
  | cons c cs =>
    have hc : (c == '|') = false := by
      simp only [beq_eq_false_iff_ne, ne_eq]
      exact fun e => hbar (e ▸ List.mem_cons_self _ _)
    have hall : ∀ a ∈ c :: cs, (!(a == '|')) = true := by
      intro a ha
      simp only [Bool.not_eq_true', beq_eq_false_iff_ne, ne_eq]
      exact fun e => hbar (e ▸ ha)
    have h0 : (c :: cs ++ '|' :: more).dropWhile (fun x => x == '|')
        = c :: (cs ++ '|' :: more) := by
      rw [List.cons_append, List.dropWhile_cons]
      simp [hc]
    have ht : (c :: cs ++ '|' :: more).takeWhile (fun x => !(x == '|')) = c :: cs := by
      rw [List.takeWhile_append_of_pos hall]
      simp
    have hd : (c :: cs ++ '|' :: more).dropWhile (fun x => !(x == '|')) = '|' :: more := by
      rw [List.dropWhile_append_of_pos hall]
      simp
    simp only [List.cons_append] at ht hd h0
    unfold strtok_r
    simp only [List.cons_append, h0, ht, hd, List.drop_succ_cons, List.drop_zero]

theorem strtok_bar_last (seg : List Char) (hne : seg ≠ []) (hbar : '|' ∉ seg) :
    strtok_r (fun c => c == '|') seg = some (seg, []) := by
  cases seg with
  | nil => exact absurd rfl hne
  | cons c cs =>
    have hc : (c == '|') = false := by
      simp only [beq_eq_false_iff_ne, ne_eq]
      exact fun e => hbar (e ▸ List.mem_cons_self _ _)
    have hall : ∀ a ∈ c :: cs, (!(a == '|')) = true := by
      intro a ha
      simp only [Bool.not_eq_true', beq_eq_false_iff_ne, ne_eq]
      exact fun e => hbar (e ▸ ha)
    have h0 : (c :: cs).dropWhile (fun x => x == '|') = c :: cs := by
      rw [List.dropWhile_cons]
      simp [hc]
    have h1 : (c :: cs).takeWhile (fun x => !(x == '|')) = c :: cs :=
      List.takeWhile_eq_self_iff.2 hall
    have h2 : (c :: cs).dropWhile (fun x => !(x == '|')) = [] :=
      List.dropWhile_eq_nil_iff.2 hall
    unfold strtok_r
    rw [h0]
    simp only [h1, h2, List.drop_nil]

theorem pipeLine_cons_cons (s t : List Char) (rest : List (List Char)) :
    pipeLine (s :: t :: rest) = s ++ '|' :: pipeLine (t :: rest) := rfl

theorem pipeLine_length_pos (s : List Char) (rest : List (List Char)) (hne : s ≠ []) :
    0 < (pipeLine (s :: rest)).length := by
  cases rest with
  | nil => exact List.length_pos.2 hne
  | cons t r => rw [pipeLine_cons_cons]; simp

/-- The splitting loop on stage texts joined by `|`: the stage texts, each without its
leading spaces, as long as there is room for them. -/
theorem splitPipeline_pipeLine (segs : List (List Char)) :
    ∀ (fuel : Nat) (acc : List (List Char)), (∀ s ∈ segs, s ≠ [] ∧ '|' ∉ s) →
      (pipeLine segs).length < fuel →
      splitPipeline fuel (pipeLine segs) acc
        = some (acc ++ (segs.take (MAXARGS - acc.length)).map skipSpaces) := by
  induction segs with
  | nil =>
    intro fuel acc _ hf
    obtain ⟨f, rfl⟩ : ∃ f, fuel = f + 1 := ⟨fuel - 1, by omega⟩
    simp [splitPipeline, pipeLine, strtok_r]
  | cons s rest ih =>
    intro fuel acc hs hf
    obtain ⟨f, rfl⟩ : ∃ f, fuel = f + 1 := ⟨fuel - 1, by omega⟩
    have hs1 := hs s (List.mem_cons_self _ _)
    have hrest : ∀ t ∈ rest, t ≠ [] ∧ '|' ∉ t := fun t ht => hs t (List.mem_cons_of_mem _ ht)
    have htok : ∃ more, strtok_r (fun c => c == '|') (pipeLine (s :: rest)) = some (s, more)
        ∧ more = pipeLine rest ∧ more.length < f := by
      cases rest with
      | nil =>
        refine ⟨[], strtok_bar_last s hs1.1 hs1.2, rfl, ?_⟩
        have := pipeLine_length_pos s [] hs1.1
        simp only [List.length_nil]
        omega
      | cons t r =>
        refine ⟨pipeLine (t :: r), ?_, rfl, ?_⟩
        · rw [pipeLine_cons_cons]
          exact strtok_bar_cons s _ hs1.1 hs1.2
        · rw [pipeLine_cons_cons] at hf
          simp only [List.length_append, List.length_cons] at hf
          omega
    obtain ⟨more, hm, rfl, hlen⟩ := htok
    rw [splitPipeline, hm]
    simp only
    by_cases hroom : acc.length < MAXARGS
    · rw [if_pos hroom, ih f (acc ++ [skipSpaces s]) hrest hlen]
      obtain ⟨k, hk⟩ : ∃ k, MAXARGS - acc.length = k + 1 :=
        ⟨MAXARGS - acc.length - 1, by omega⟩
      have hk2 : MAXARGS - (acc ++ [skipSpaces s]).length = k := by
        simp only [List.length_append, List.length_cons, List.length_nil]
        omega
      rw [hk, hk2]
      simp
    · rw [if_neg hroom]
      have : MAXARGS - acc.length = 0 := by omega
      rw [this]
      simp

theorem parseStages_stages (argc0 : Nat → Int) (segs : List (List Char))
    (argvs : List (List (List Char)))
    (h : List.Forall₂ (fun seg argv =>
      argv ≠ [] ∧ parseline_no_subst (skipSpaces seg) = some (.done argv)) segs argvs) :
    ∀ i, parseStages argc0 i (segs.map skipSpaces) = some (.stages argvs) := by
  induction h with
  | nil => intro i; rfl
  | @cons seg argv segs2 argvs2 hhead _ ih =>
    intro i
    obtain ⟨hne, hp⟩ := hhead
    cases argv with
    | nil => exact absurd rfl hne
    | cons a args =>
      rw [List.map_cons, parseStages, hp]
      simp only [ih (i + 1)]

/-- The Pipeline Builder on a line whose expansion is made of stage texts joined by `|`:
the first `MAXARGS` stage texts are tokenized and run as one pipeline. -/
theorem eval_pipe_pipeLine (run : Runner) (fuel : Nat) (argc0 : Nat → Int)
    (line : List Char) (log : List Action) (segs : List (List Char))
    (argvs : List (List (List Char)))
    (hexp : replaceCommandSubstitution run fuel line = some (log, .ok (pipeLine segs)))
    (hsegs : ∀ s ∈ segs, s ≠ [] ∧ '|' ∉ s)
    (hparse : List.Forall₂ (fun seg argv =>
      argv ≠ [] ∧ parseline_no_subst (skipSpaces seg) = some (.done argv))
      (segs.take MAXARGS) argvs) :
    eval_pipe run fuel argc0 line
      = some (log ++ runPipeline argvs, .returned) := by
  unfold eval_pipe
  rw [hexp]
  simp only
  rw [splitPipeline_pipeLine segs _ [] hsegs (Nat.lt_succ_self _)]
  simp only [List.length_nil, Nat.sub_zero, List.nil_append]
  rw [parseStages_stages argc0 _ argvs hparse 0]

/-- The actions of a pipeline of `N` stages: `N - 1` pipes, then `N` children in stage
order, child `i` reading from pipe `i - 1` when `i > 0` and writing to pipe `i` when
`i < N - 1`, then the parent's closes and waits. -/
theorem runPipeline_wiring (argvs : List (List (List Char))) :
    ∃ children : List Child,
      runPipeline argvs
          = (List.range (argvs.length - 1)).map Action.pipe ++ children.map Action.fork
            ++ (List.range (2 * (argvs.length - 1))).map Action.close
            ++ List.replicate argvs.length Action.wait
        ∧ children.length = argvs.length
        ∧ ∀ i, i < argvs.length → ∃ c, children[i]? = some c ∧ argvs[i]? = some c.argv
            ∧ c.stdin = (if 0 < i then some (readEnd (i - 1)) else none)
            ∧ c.stdout = (if i + 1 < argvs.length then some (writeEnd i) else none)
            ∧ c.after = .exits 1 := by
  refine ⟨argvs.enum.map (fun p => stageChild argvs.length p.1 p.2), ?_, by simp, ?_⟩
  · simp [runPipeline, List.map_map, Function.comp_def]
  · intro i hi
    refine ⟨stageChild argvs.length i argvs[i], ?_, ?_, ?_, ?_, rfl⟩
    · rw [List.getElem?_map, List.getElem?_enum, List.getElem?_eq_getElem hi]
      rfl
    · rw [List.getElem?_eq_getElem hi]
      rfl
    · simp only [stageChild, readEnd, Nat.mul_comm]
    · simp only [stageChild, writeEnd, Nat.mul_comm]

theorem runPipeline_forks (argvs : List (List (List Char))) :
    ((runPipeline argvs).filter Action.isFork).length = argvs.length := by
  simp [runPipeline, List.filter_append, List.filter_map, Function.comp_def, Action.isFork,
    List.filter_replicate]

theorem runPipeline_pipes (argvs : List (List (List Char))) :
    ((runPipeline argvs).filter Action.isPipe).length = argvs.length - 1 := by
  simp [runPipeline, List.filter_append, List.filter_map, Function.comp_def, Action.isPipe,
    List.filter_replicate]

/-- C20, amended. Pipeline wiring: for a pipeline of `N` stage texts joined by `|`, with
`N` at most `MAXARGS`, that all tokenize to at least one argument, `eval_pipe` creates
exactly the `N - 1` pipes `0 .. N - 2`, then forks exactly `N` children in stage order;
child `i` has the read end of pipe `i - 1` as standard input exactly when `i > 0` and the
write end of pipe `i` as standard output exactly when `i < N - 1`. -/
theorem eval_pipe_wiring (run : Runner) (fuel : Nat) (argc0 : Nat → Int)
    (line : List Char) (log : List Action) (segs : List (List Char))
    (argvs : List (List (List Char)))
    (hexp : replaceCommandSubstitution run fuel line = some (log, .ok (pipeLine segs)))
    (hsegs : ∀ s ∈ segs, s ≠ [] ∧ '|' ∉ s) (hN : segs.length ≤ MAXARGS)
    (hparse : List.Forall₂ (fun seg argv =>
      argv ≠ [] ∧ parseline_no_subst (skipSpaces seg) = some (.done argv)) segs argvs) :
    ∃ children : List Child,
      eval_pipe run fuel argc0 line
          = some (log
              ++ ((List.range (segs.length - 1)).map Action.pipe ++ children.map Action.fork
                ++ (List.range (2 * (segs.length - 1))).map Action.close
                ++ List.replicate segs.length Action.wait), .returned)
        ∧ children.length = segs.length
        ∧ ∀ i, i < segs.length → ∃ c, children[i]? = some c ∧ argvs[i]? = some c.argv
            ∧ c.stdin = (if 0 < i then some (readEnd (i - 1)) else none)
            ∧ c.stdout = (if i + 1 < segs.length then some (writeEnd i) else none)
            ∧ c.after = .exits 1 := by
  have hlen : segs.length = argvs.length := hparse.length_eq
  have htake : segs.take MAXARGS = segs := List.take_of_length_le hN
  obtain ⟨children, hrun, hcl, hwire⟩ := runPipeline_wiring argvs
  refine ⟨children, ?_, by rw [hcl, hlen], ?_⟩
  · rw [eval_pipe_pipeLine run fuel argc0 line log segs argvs hexp hsegs (by rw [htake]; exact hparse),
      hrun, hlen]
  · intro i hi
    rw [hlen] at hi ⊢
    exact hwire i hi

/-- C20 amended, at the line `echo hi | sort | wc`. -/
theorem eval_pipe_wiring_witness :
    ∃ children : List Child,
      eval_pipe echoRunner 1 (fun _ => 0) "echo hi | sort | wc\n".toList
          = some (([] : List Action)
              ++ ((List.range (["echo hi ".toList, " sort ".toList, " wc\n".toList].length - 1)).map
                    Action.pipe
                ++ children.map Action.fork
                ++ (List.range
                    (2 * (["echo hi ".toList, " sort ".toList, " wc\n".toList].length - 1))).map
                    Action.close
                ++ List.replicate ["echo hi ".toList, " sort ".toList, " wc\n".toList].length
                    Action.wait), .returned)
        ∧ children.length = ["echo hi ".toList, " sort ".toList, " wc\n".toList].length
        ∧ ∀ i, i < ["echo hi ".toList, " sort ".toList, " wc\n".toList].length →
            ∃ c, children[i]? = some c
              ∧ [["echo".toList, "hi".toList], ["sort".toList], ["wc".toList]][i]?
                = some c.argv
              ∧ c.stdin = (if 0 < i then some (readEnd (i - 1)) else none)
              ∧ c.stdout
                = (if i + 1 < ["echo hi ".toList, " sort ".toList, " wc\n".toList].length
                   then some (writeEnd i) else none)
              ∧ c.after = .exits 1 :=
  eval_pipe_wiring echoRunner 1 (fun _ => 0) "echo hi | sort | wc\n".toList []
    ["echo hi ".toList, " sort ".toList, " wc\n".toList]
    [["echo".toList, "hi".toList], ["sort".toList], ["wc".toList]]
    (by decide) (by decide) (by decide)
    (List.Forall₂.cons ⟨by decide, by decide⟩
      (List.Forall₂.cons ⟨by decide, by decide⟩
        (List.Forall₂.cons ⟨by decide, by decide⟩ List.Forall₂.nil)))

theorem pipeLine_replicate_mem (n : Nat) (x : Char) (hx : x ∈ pipeLine (List.replicate n ['a'])) :
    x = 'a' ∨ x = '|' := by
  induction n with
  | zero => simp [pipeLine] at hx
  | succ n ih =>
    cases n with
    | zero =>
      simp only [List.replicate, pipeLine, List.mem_singleton] at hx
      exact Or.inl hx
    | succ m =>
      rw [List.replicate_succ, List.replicate_succ, pipeLine_cons_cons] at hx
      simp only [List.cons_append, List.nil_append, List.mem_cons] at hx
      rcases hx with h | h | h
      · exact Or.inl h
      · exact Or.inr h
      · exact ih (by rw [List.replicate_succ]; exact h)

theorem forall₂_replicate_stage (n : Nat) :
    List.Forall₂ (fun seg argv =>
      argv ≠ [] ∧ parseline_no_subst (skipSpaces seg) = some (.done argv))
      (List.replicate n ['a']) (List.replicate n [['a']]) := by
  induction n with
  | zero => exact List.Forall₂.nil
  | succ n ih => exact List.Forall₂.cons ⟨by decide, by decide⟩ ih

/-- C20, as stated, fails: a line of 129 stages `a|a|...|a` is a pipeline of 129 stages
that all tokenize to one argument, and `eval_pipe` creates 127 pipes and forks 128
children: the splitting loop stops after `MAXARGS` stages. -/
theorem eval_pipe_drops_stages :
    ∃ actions, eval_pipe echoRunner 1 (fun _ => 0) (pipeLine (List.replicate 129 ['a']))
          = some (actions, .returned)
      ∧ (actions.filter Action.isFork).length = 128
      ∧ (actions.filter Action.isPipe).length = 127 := by
  have hclean : ¬ ['$', '('] <:+: pipeLine (List.replicate 129 ['a']) := by
    apply not_infix_of_not_mem_dollar
    intro h
    rcases pipeLine_replicate_mem _ _ h with e | e
    · exact absurd e (by decide)
    · exact absurd e (by decide)
  have hsegs : ∀ s ∈ List.replicate 129 ['a'], s ≠ [] ∧ '|' ∉ s := by
    intro s hs
    rw [List.eq_of_mem_replicate hs]
    exact ⟨by decide, by decide⟩
  have htake : (List.replicate 129 ['a']).take MAXARGS = List.replicate 128 ['a'] := by
    rw [List.take_replicate]
    rfl
  have h := eval_pipe_pipeLine echoRunner 1 (fun _ => 0) (pipeLine (List.replicate 129 ['a']))
    [] (List.replicate 129 ['a']) (List.replicate 128 [['a']])
    (replaceCommandSubstitution_plain echoRunner 0 _ hclean) hsegs
    (by rw [htake]; exact forall₂_replicate_stage 128)
  refine ⟨runPipeline (List.replicate 128 [['a']]), by simpa using h, ?_, ?_⟩
  · rw [runPipeline_forks, List.length_replicate]
  · rw [runPipeline_pipes, List.length_replicate]

theorem parseStages_blank (argc0 : Nat → Int) (front : List (List Char))
    (argvs : List (List (List Char))) (blank : List Char) (back : List (List Char))
    (h : List.Forall₂ (fun seg argv =>
      argv ≠ [] ∧ parseline_no_subst (skipSpaces seg) = some (.done argv)) front argvs)
    (hblank : parseline_no_subst (skipSpaces blank) = some (.done [])) :
    ∀ i, parseStages argc0 i ((front ++ blank :: back).map skipSpaces)
      = some (.aborted false) := by
  induction h with
  | nil =>
    intro i
    rw [List.nil_append, List.map_cons, parseStages, hblank]
  | @cons seg argv segs2 argvs2 hhead _ ih =>
    intro i
    obtain ⟨hne, hp⟩ := hhead
    cases argv with
    | nil => exact absurd rfl hne
    | cons a args =>
      rw [List.cons_append, List.map_cons, parseStages, hp]
      simp only [ih (i + 1)]

/-- A stage text that is not empty but has no token (spaces only, or the newline that
ends the line) aborts the pipeline before any pipe is created or any child forked, when
it is one of the first `MAXARGS` stage texts and the stages before it have tokens. -/
theorem eval_pipe_blank_stage (run : Runner) (fuel : Nat) (argc0 : Nat → Int)
    (line : List Char) (log : List Action) (front : List (List Char))
    (blank : List Char) (back : List (List Char)) (argvs : List (List (List Char)))
    (hexp : replaceCommandSubstitution run fuel line
      = some (log, .ok (pipeLine (front ++ blank :: back))))
    (hsegs : ∀ s ∈ front ++ blank :: back, s ≠ [] ∧ '|' ∉ s)
    (hroom : front.length < MAXARGS)
    (hparse : List.Forall₂ (fun seg argv =>
      argv ≠ [] ∧ parseline_no_subst (skipSpaces seg) = some (.done argv)) front argvs)
    (hblank : parseline_no_subst (skipSpaces blank) = some (.done [])) :
    eval_pipe run fuel argc0 line = some (log, .returned) := by
  obtain ⟨k, hk⟩ : ∃ k, MAXARGS - front.length = k + 1 :=
    ⟨MAXARGS - front.length - 1, by omega⟩
  have htake : (front ++ blank :: back).take MAXARGS = front ++ blank :: back.take k := by
    rw [List.take_append_eq_append_take, List.take_of_length_le (by omega), hk,
      List.take_succ_cons]
  unfold eval_pipe
  rw [hexp]
  simp only
  rw [splitPipeline_pipeLine _ _ [] hsegs (Nat.lt_succ_self _)]
  simp only [List.length_nil, Nat.sub_zero, List.nil_append]
  rw [htake, parseStages_blank argc0 front argvs blank (back.take k) hparse hblank 0]
  simp [quoteMessage]

/-! ## Theorems: the Local Variable Store -/

theorem entryName_append (n v : List Char) (hn : '=' ∉ n) : entryName (n ++ '=' :: v) = n := by
  unfold entryName
  rw [List.takeWhile_append_of_pos (by
    intro a ha
    simp only [bne_iff_ne, ne_eq]
    exact fun e => hn (e ▸ ha))]
  simp

theorem strchr_entryName {e n v : List Char} (h : strchr '=' e = some (n, v)) :
    entryName e = n ∧ e = n ++ '=' :: v ∧ '=' ∉ n := by
  obtain ⟨he, hn⟩ := strchr_some h
  exact ⟨by rw [he, entryName_append n v hn], he, hn⟩

theorem entry_decompose {e : List Char} (h : '=' ∈ e) :
    ∃ v, strchr '=' e = some (entryName e, v) := by
  obtain ⟨n, v, hs⟩ := strchr_of_mem h
  exact ⟨v, by rw [hs, (strchr_entryName hs).1]⟩

theorem entryName_not_mem (e : List Char) : '=' ∉ entryName e := by
  intro h
  have := List.mem_takeWhile_imp h
  simp at this

/-- The test of `local` for an entry with the given name, on entries of the form
`NAME=VALUE`. -/
theorem entryHasName_iff {e name : List Char} (he : '=' ∈ e) (hn : '=' ∉ name) :
    entryHasName e name = true ↔ entryName e = name := by
  unfold entryHasName
  rw [List.isPrefixOf_iff_prefix]
  constructor
  · rintro ⟨t, ht⟩
    rw [← ht, List.append_assoc]
    exact entryName_append name _ hn
  · intro h
    obtain ⟨v, hv⟩ := entry_decompose he
    obtain ⟨_, hd, _⟩ := strchr_entryName hv
    rw [h] at hd
    exact ⟨v, by rw [hd]; simp⟩

theorem lookupFrom_eq (name : List Char) (lv : List (List Char)) :
    ∀ init : Option (List Char),
      lv.foldl (fun var_value entry =>
          match strchr '=' entry with
          | none => var_value
          | some (n, v) => if n = name then some v else var_value) init
        = match lookupLocal lv name with
          | some v => some v
          | none => init := by
  induction lv using List.reverseRecOn with
  | nil => intro init; rfl
  | append_singleton l e ih =>
    intro init
    rw [lookupLocal_concat, List.foldl_append, List.foldl_cons, List.foldl_nil, ih init]
    cases hs : strchr '=' e with
    | none => rfl
    | some p =>
      obtain ⟨n, v⟩ := p
      simp only
      by_cases hn : n = name
      · simp [hn]
      · simp only [hn, if_false]

theorem lookupLocal_cons (e : List Char) (lv : List (List Char)) (name : List Char) :
    lookupLocal (e :: lv) name
      = match lookupLocal lv name with
        | some v => some v
        | none =>
          match strchr '=' e with
          | none => none
          | some (n, v) => if n = name then some v else none := by
  have h := lookupFrom_eq name lv
    (match strchr '=' e with
      | none => none
      | some (n, v) => if n = name then some v else none)
  rw [← h]
  simp only [lookupLocal, List.foldl_cons]

theorem lookupLocal_append (l1 l2 : List (List Char)) (name : List Char) :
    lookupLocal (l1 ++ l2) name
      = match lookupLocal l2 name with
        | some v => some v
        | none => lookupLocal l1 name := by
  have h := lookupFrom_eq name l2 (lookupLocal l1 name)
  rw [← h]
  simp only [lookupLocal, List.foldl_append]

theorem lookupLocal_none_of_names {lv : List (List Char)} {name : List Char}
    (h : ∀ e ∈ lv, entryName e ≠ name) : lookupLocal lv name = none := by
  induction lv with
  | nil => rfl
  | cons e rest ih =>
    rw [lookupLocal_cons, ih (fun x hx => h x (List.mem_cons_of_mem _ hx))]
    cases hs : strchr '=' e with
    | none => rfl
    | some p =>
      obtain ⟨n, v⟩ := p
      have hne : n ≠ name := by
        rw [← (strchr_entryName hs).1]
        exact h e (List.mem_cons_self _ _)
      simp [hne]

/-- The lookup of a name in a store where the entry of that name is followed by entries
of other names only. -/
theorem lookupLocal_entry (front back : List (List Char)) (name value : List Char)
    (hn : '=' ∉ name) (hback : ∀ e ∈ back, entryName e ≠ name) :
    lookupLocal (front ++ (name ++ '=' :: value) :: back) name = some value := by
  rw [lookupLocal_append, lookupLocal_cons, lookupLocal_none_of_names hback,
    strchr_append value hn]
  simp

/-- The lookup of a name is not changed when the entry of another name is replaced. -/
theorem lookupLocal_other (front back : List (List Char)) (e1 e2 : List Char)
    (other : List Char) (h1 : '=' ∈ e1) (h2 : '=' ∈ e2)
    (hn1 : entryName e1 ≠ other) (hn2 : entryName e2 ≠ other) :
    lookupLocal (front ++ e2 :: back) other = lookupLocal (front ++ e1 :: back) other := by
  have key : ∀ e : List Char, '=' ∈ e → entryName e ≠ other →
      lookupLocal (e :: back) other = lookupLocal back other := by
    intro e he hne
    rw [lookupLocal_cons]
    obtain ⟨v, hv⟩ := entry_decompose he
    rw [hv]
    simp only [hne, if_false]
    cases lookupLocal back other with
    | none => rfl
    | some x => rfl
  rw [lookupLocal_append, lookupLocal_append, key e1 h1 hn1, key e2 h2 hn2]

theorem overwriteLocal_none (name value : List Char) (lv : List (List Char))
    (h : ∀ e ∈ lv, entryHasName e name = false) : overwriteLocal name value lv = none := by
  induction lv with
  | nil => rfl
  | cons e rest ih =>
    rw [overwriteLocal, h e (List.mem_cons_self _ _),
      ih (fun x hx => h x (List.mem_cons_of_mem _ hx))]
    simp

theorem overwriteLocal_first (name value : List Char) (front back : List (List Char))
    (e : List Char) (hfront : ∀ x ∈ front, entryHasName x name = false)
    (he : entryHasName e name = true) :
    overwriteLocal name value (front ++ e :: back)
      = some (front ++ (name ++ '=' :: value) :: back) := by
  induction front with
  | nil => simp [overwriteLocal, he]
  | cons x xs ih =>
    rw [List.cons_append, overwriteLocal, hfront x (List.mem_cons_self _ _),
      ih (fun y hy => hfront y (List.mem_cons_of_mem _ hy))]
    simp

theorem storeOk_names_front_back {front back : List (List Char)} {e : List Char}
    (hok : StoreOk (front ++ e :: back)) :
    (∀ x ∈ front, entryName x ≠ entryName e) ∧ (∀ x ∈ back, entryName x ≠ entryName e) := by
  have hnd := hok.2.1
  rw [List.map_append, List.map_cons, List.nodup_append] at hnd
  obtain ⟨_, h2, h3⟩ := hnd
  rw [List.nodup_cons] at h2
  constructor
  · intro x hx heq
    exact h3 (List.mem_map_of_mem _ hx) (by rw [heq]; exact List.mem_cons_self _ _)
  · intro x hx heq
    exact h2.1 (by rw [← heq]; exact List.mem_map_of_mem _ hx)

/-- The index found by `findIdx?` holds an element with the property searched for. -/
theorem findIdx?_mem {p : List Char → Bool} {lv : List (List Char)} {i : Nat}
    (h : lv.findIdx? p = some i) : ∃ e, lv[i]? = some e ∧ e ∈ lv ∧ p e = true := by
  have h2 := List.findIdx?_of_eq_some h
  cases hg : lv[i]? with
  | none => rw [hg] at h2; exact absurd h2 (by simp)
  | some a =>
    rw [hg] at h2
    exact ⟨a, rfl, List.getElem?_mem hg, h2⟩

/-- A freed entry is read only when the value is `$REF` and one entry of the store passes both
the test for the name REF and the test for the name assigned to. -/
theorem readsFreedEntry_true {lv : List (List Char)} {name value0 : List Char}
    (h : readsFreedEntry lv name value0 = true) :
    ∃ ref e, value0 = '$' :: ref ∧ e ∈ lv ∧ entryHasName e ref = true
      ∧ entryHasName e name = true := by
  unfold readsFreedEntry at h
  cases hv : valueSource lv value0 with
  | none => rw [hv] at h; exact absurd h (by simp)
  | some j =>
    rw [hv] at h
    simp only [beq_iff_eq] at h
    unfold valueSource at hv
    split at hv
    · rename_i ref
      obtain ⟨e1, hg1, hm1, hp1⟩ := findIdx?_mem hv
      obtain ⟨e2, hg2, _, hp2⟩ := findIdx?_mem h
      rw [hg1] at hg2
      simp only [Option.some.injEq] at hg2
      subst hg2
      exact ⟨ref, e1, rfl, hm1, hp1, hp2⟩
    · exact absurd hv (by simp)

/-- No freed entry is read when the value does not begin with `$`. -/
theorem readsFreedEntry_plain (lv : List (List Char)) (name value : List Char)
    (h : value.head? ≠ some '$') : readsFreedEntry lv name value = false := by
  cases hr : readsFreedEntry lv name value with
  | false => rfl
  | true =>
    obtain ⟨ref, _, hv, _⟩ := readsFreedEntry_true hr
    rw [hv] at h
    exact absurd rfl h

/-- No freed entry is read when the value is not `$REF` for a REF such that the entry of the
name assigned to begins with `REF=`. -/
theorem readsFreedEntry_false {lv : List (List Char)} {name value0 : List Char}
    (hok : StoreOk lv) (hname : '=' ∉ name)
    (hfree : ∀ ref e, value0 = '$' :: ref → e ∈ lv → entryName e = name →
      ¬ (ref ++ ['=']) <+: e) :
    readsFreedEntry lv name value0 = false := by
  cases hr : readsFreedEntry lv name value0 with
  | false => rfl
  | true =>
    obtain ⟨ref, e, hv, hm, h1, h2⟩ := readsFreedEntry_true hr
    exact absurd (List.isPrefixOf_iff_prefix.1 h1)
      (hfree ref e hv hm ((entryHasName_iff (hok.1 e hm) hname).1 h2))

/-- No freed entry is read when the value is `$REF` for a REF without `=` other than the name
assigned to. -/
theorem readsFreedEntry_other {lv : List (List Char)} {name ref : List Char}
    (hok : StoreOk lv) (hname : '=' ∉ name) (href : '=' ∉ ref) (hne : ref ≠ name) :
    readsFreedEntry lv name ('$' :: ref) = false := by
  apply readsFreedEntry_false hok hname
  intro r e hv hm he hp
  simp only [List.cons.injEq, true_and] at hv
  subst hv
  have h1 : entryHasName e ref = true := List.isPrefixOf_iff_prefix.2 hp
  exact hne (((entryHasName_iff (hok.1 e hm) href).1 h1).symm.trans he)

/-- The built-in `local NAME=VALUE` when the store has an entry named NAME and the value does
not lie in that entry: the entry is replaced where it stands. -/
theorem evalLocal_update (sh : Shell) (name value0 : List Char) (rest : List (List Char))
    (front back : List (List Char)) (e : List Char)
    (hname : '=' ∉ name) (hlen : name.length < 256) (hok : StoreOk sh.local_vars)
    (hdec : sh.local_vars = front ++ e :: back) (he : entryName e = name)
    (hfree : readsFreedEntry sh.local_vars name value0 = false) :
    evalLocal sh ((name ++ '=' :: value0) :: rest)
      = { shell := { sh with local_vars :=
            front ++ (name ++ '=' :: resolveLocalValue sh.local_vars value0) :: back },
          actions := [], flow := .returned } := by
  have hok2 := hok
  rw [hdec] at hok2
  obtain ⟨hf, _⟩ := storeOk_names_front_back hok2
  have hin : ∀ x ∈ front ++ e :: back, '=' ∈ x := hok2.1
  have hfront : ∀ x ∈ front, entryHasName x name = false := by
    intro x hx
    have hx2 : '=' ∈ x := hin x (List.mem_append_left _ hx)
    cases hh : entryHasName x name with
    | false => rfl
    | true => exact absurd ((entryHasName_iff hx2 hname).1 hh) (he ▸ hf x hx)
  have he2 : entryHasName e name = true :=
    (entryHasName_iff (hin e (List.mem_append_right _ (List.mem_cons_self _ _))) hname).2 he
  have hover := overwriteLocal_first name (resolveLocalValue sh.local_vars value0) front back e
    hfront he2
  rw [← hdec] at hover
  simp only [evalLocal, strchr_append value0 hname, show ¬ 256 ≤ name.length by omega,
    if_false, hover, hfree, Bool.false_eq_true]

/-- The built-in `local NAME=VALUE` when the store has no entry named NAME and is not
full: the entry is appended. -/
theorem evalLocal_append (sh : Shell) (name value0 : List Char) (rest : List (List Char))
    (hname : '=' ∉ name) (hlen : name.length < 256) (hok : StoreOk sh.local_vars)
    (hnew : ∀ e ∈ sh.local_vars, entryName e ≠ name)
    (hroom : sh.local_vars.length < MAXARGS) :
    evalLocal sh ((name ++ '=' :: value0) :: rest)
      = { shell := { sh with local_vars :=
            sh.local_vars ++ [name ++ '=' :: resolveLocalValue sh.local_vars value0] },
          actions := [], flow := .returned } := by
  have hnone : ∀ x ∈ sh.local_vars, entryHasName x name = false := by
    intro x hx
    cases hh : entryHasName x name with
    | false => rfl
    | true => exact absurd ((entryHasName_iff (hok.1 x hx) hname).1 hh) (hnew x hx)
  simp only [evalLocal, strchr_append value0 hname, show ¬ 256 ≤ name.length by omega,
    if_false, overwriteLocal_none name _ _ hnone, hroom, if_true]

/-- The built-in `local NAME=VALUE` when the store has no entry named NAME and is full:
nothing is stored. -/
theorem evalLocal_full (sh : Shell) (name value0 : List Char) (rest : List (List Char))
    (hname : '=' ∉ name) (hlen : name.length < 256) (hok : StoreOk sh.local_vars)
    (hnew : ∀ e ∈ sh.local_vars, entryName e ≠ name)
    (hfull : ¬ sh.local_vars.length < MAXARGS) :
    evalLocal sh ((name ++ '=' :: value0) :: rest)
      = { shell := sh, actions := [.error "No space to store local var"],
          flow := .returned } := by
  have hnone : ∀ x ∈ sh.local_vars, entryHasName x name = false := by
    intro x hx
    cases hh : entryHasName x name with
    | false => rfl
    | true => exact absurd ((entryHasName_iff (hok.1 x hx) hname).1 hh) (hnew x hx)
  simp only [evalLocal, strchr_append value0 hname, show ¬ 256 ≤ name.length by omega,
    if_false, overwriteLocal_none name _ _ hnone, hfull]

theorem storeOk_update {front back : List (List Char)} {e : List Char} (name value : List Char)
    (hname : '=' ∉ name) (hok : StoreOk (front ++ e :: back)) (he : entryName e = name) :
    StoreOk (front ++ (name ++ '=' :: value) :: back) := by
  obtain ⟨h1, h2, h3⟩ := hok
  refine ⟨?_, ?_, ?_⟩
  · intro x hx
    rcases List.mem_append.1 hx with h | h
    · exact h1 x (List.mem_append_left _ h)
    · rcases List.mem_cons.1 h with h | h
      · rw [h]; simp
      · exact h1 x (List.mem_append_right _ (List.mem_cons_of_mem _ h))
  · rw [List.map_append, List.map_cons, entryName_append name value hname, ← he]
    rw [List.map_append, List.map_cons] at h2
    exact h2
  · simpa using h3

theorem storeOk_append {lv : List (List Char)} (name value : List Char)
    (hname : '=' ∉ name) (hok : StoreOk lv) (hnew : ∀ e ∈ lv, entryName e ≠ name)
    (hroom : lv.length < MAXARGS) : StoreOk (lv ++ [name ++ '=' :: value]) := by
  obtain ⟨h1, h2, _⟩ := hok
  refine ⟨?_, ?_, ?_⟩
  · intro x hx
    rcases List.mem_append.1 hx with h | h
    · exact h1 x h
    · rw [List.mem_singleton.1 h]; simp
  · rw [List.map_append, List.map_cons, List.map_nil, entryName_append name value hname,
      List.nodup_append]
    refine ⟨h2, List.nodup_singleton _, ?_⟩
    intro a ha hb
    rw [List.mem_singleton] at hb
    obtain ⟨x, hx, rfl⟩ := List.mem_map.1 ha
    exact hnew x hx hb
  · simp only [List.length_append, List.length_cons, List.length_nil]
    omega

theorem storeOk_nil : StoreOk [] := by
  refine ⟨by simp, by simp, by simp⟩

theorem lookupLocal_mem {lv : List (List Char)} {name v : List Char}
    (h : lookupLocal lv name = some v) : (name ++ '=' :: v) ∈ lv := by
  induction lv with
  | nil => simp [lookupLocal] at h
  | cons e rest ih =>
    rw [lookupLocal_cons] at h
    cases hr : lookupLocal rest name with
    | some x =>
      rw [hr] at h
      simp only [Option.some.injEq] at h
      subst h
      exact List.mem_cons_of_mem _ (ih hr)
    | none =>
      rw [hr] at h
      simp only at h
      cases hs : strchr '=' e with
      | none => simp [hs] at h
      | some p =>
        obtain ⟨n, x⟩ := p
        rw [hs] at h
        simp only at h
        split at h
        · rename_i hn
          simp only [Option.some.injEq] at h
          subst h
          subst hn
          rw [(strchr_entryName hs).2.1]
          exact List.mem_cons_self _ _
        · simp at h

/-- A store without an entry `NAME=...` gives nothing for NAME. -/
theorem lookupLocal_none_of_not_mem {lv : List (List Char)} {name : List Char}
    (h : ∀ w, (name ++ '=' :: w) ∉ lv) : lookupLocal lv name = none := by
  cases hl : lookupLocal lv name with
  | none => rfl
  | some v => exact absurd (lookupLocal_mem hl) (h v)

/-- The store loop yields the value of the last entry `NAME=...`. -/
theorem lookupLocal_last (front back : List (List Char)) (name v : List Char)
    (hn : '=' ∉ name) (hback : ∀ w, (name ++ '=' :: w) ∉ back) :
    lookupLocal (front ++ (name ++ '=' :: v) :: back) name = some v := by
  rw [lookupLocal_append, lookupLocal_cons, lookupLocal_none_of_not_mem hback,
    strchr_append v hn]
  simp

/-- In a store with distinct names, the store loop yields the value of the entry of NAME. -/
theorem lookupLocal_of_mem {lv : List (List Char)} {name v : List Char} (hok : StoreOk lv)
    (hn : '=' ∉ name) (hmem : (name ++ '=' :: v) ∈ lv) : lookupLocal lv name = some v := by
  obtain ⟨front, back, hdec⟩ := List.append_of_mem hmem
  have hok2 := hok
  rw [hdec] at hok2
  rw [hdec]
  exact lookupLocal_entry front back name v hn
    (fun x hx => by
      have := (storeOk_names_front_back hok2).2 x hx
      rwa [entryName_append name v hn] at this)

theorem resolveLocalValue_plain (lv : List (List Char)) (value : List Char)
    (h : value.head? ≠ some '$') : resolveLocalValue lv value = value := by
  unfold resolveLocalValue
  split
  · simp at h
  · rfl

/-- The command `local A=$A` on a store that holds `A=1`: the value found for `$A` lies in the
entry of `A`, and that entry is freed before the value is read. -/
theorem evalLocal_self_reference :
    (evalLocal ⟨emptyEnv, ["A=1".toList], 0⟩ ["A=$A".toList]).flow = .undefined
      ∧ runLocals [["A=1".toList], ["A=$A".toList]] ⟨emptyEnv, [], 0⟩ = none :=
  ⟨by decide, rfl⟩

theorem overwriteLocal_some {name value : List Char} {lv lv2 : List (List Char)}
    (h : overwriteLocal name value lv = some lv2) :
    ∃ front e back, lv = front ++ e :: back ∧ entryHasName e name = true
      ∧ lv2 = front ++ (name ++ '=' :: value) :: back := by
  induction lv generalizing lv2 with
  | nil => simp [overwriteLocal] at h
  | cons x rest ih =>
    rw [overwriteLocal] at h
    split at h
    · rename_i hx
      simp only [Option.some.injEq] at h
      exact ⟨[], x, rest, rfl, hx, h.symm⟩
    · split at h
      · simp at h
      · rename_i r hr
        simp only [Option.some.injEq] at h
        obtain ⟨front, e, back, hdec, he, hr2⟩ := ih hr
        exact ⟨x :: front, e, back, by rw [hdec]; rfl, he, by rw [← h, hr2]; rfl⟩

theorem overwriteLocal_none_names {name value : List Char} {lv : List (List Char)}
    (h : overwriteLocal name value lv = none) : ∀ e ∈ lv, entryHasName e name = false := by
  induction lv with
  | nil => simp
  | cons x rest ih =>
    rw [overwriteLocal] at h
    split at h
    · simp at h
    · rename_i hx
      split at h
      · rename_i hr
        intro e he
        rcases List.mem_cons.1 he with rfl | he
        · simpa using hx
        · exact ih hr e he
      · simp at h

/-- The built-in `local` keeps the invariant of the store, whatever its arguments. -/
theorem evalLocal_storeOk (sh : Shell) (args : List (List Char))
    (hok : StoreOk sh.local_vars) : StoreOk (evalLocal sh args).shell.local_vars := by
  cases args with
  | nil => exact hok
  | cons arg rest =>
    cases hs : strchr '=' arg with
    | none => simp only [evalLocal, hs]; exact hok
    | some p =>
      obtain ⟨n, v⟩ := p
      obtain ⟨_, _, hn⟩ := strchr_entryName hs
      simp only [evalLocal, hs]
      split
      · exact hok
      · cases ho : overwriteLocal n (resolveLocalValue sh.local_vars v) sh.local_vars with
        | some lv2 =>
          obtain ⟨front, e, back, hdec, he, rfl⟩ := overwriteLocal_some ho
          have hok2 := hok
          rw [hdec] at hok2
          have hin : '=' ∈ e := hok2.1 e (List.mem_append_right _ (List.mem_cons_self _ _))
          simp only
          split
          · exact hok
          · exact storeOk_update n _ hn hok2 ((entryHasName_iff hin hn).1 he)
        | none =>
          have hnone := overwriteLocal_none_names ho
          have hnew : ∀ e ∈ sh.local_vars, entryName e ≠ n := by
            intro e he heq
            have := (entryHasName_iff (hok.1 e he) hn).2 heq
            rw [hnone e he] at this
            exact absurd this (by decide)
          simp only
          split
          · rename_i hroom
            exact storeOk_append n _ hn hok hnew hroom
          · exact hok

/-- After any sequence of `local` commands none of which overruns `var_name` or reads a
freed entry, started from a store that satisfies the invariant (such as the empty store), the
names of the entries are pairwise distinct and there are at most `MAXARGS` entries. -/
theorem runLocals_storeOk (cmds : List (List (List Char))) :
    ∀ sh sh2 : Shell, StoreOk sh.local_vars → runLocals cmds sh = some sh2 →
      StoreOk sh2.local_vars := by
  induction cmds with
  | nil =>
    intro sh sh2 hok h
    simp only [runLocals, Option.some.injEq] at h
    exact h ▸ hok
  | cons args rest ih =>
    intro sh sh2 hok h
    rw [runLocals] at h
    split at h
    · simp at h
    · exact ih _ sh2 (evalLocal_storeOk sh args hok) h

/-- C19. The command `local NAME=v` with a NAME of 300 letters, run on the empty store:
`strncpy` copies the 300 letters into `char var_name[256]`. The behaviour of the
built-in is not defined from there on, so that nothing holds of the store after this
sequence of one `local` command. -/
theorem evalLocal_long_name_overrun :
    (evalLocal ⟨emptyEnv, [], 0⟩ [List.replicate 300 'a' ++ "=v".toList]).flow = .undefined
      ∧ runLocals [[List.replicate 300 'a' ++ "=v".toList]] ⟨emptyEnv, [], 0⟩ = none := by
  have hs : strchr '=' (List.replicate 300 'a' ++ "=v".toList)
      = some (List.replicate 300 'a', "v".toList) :=
    strchr_append "v".toList (by
      intro h
      exact absurd (List.eq_of_mem_replicate h) (by decide))
  have hflow : (evalLocal ⟨emptyEnv, [], 0⟩ [List.replicate 300 'a' ++ "=v".toList]).flow
      = .undefined := by
    simp only [evalLocal, hs, List.length_replicate]
    rfl
  refine ⟨hflow, ?_⟩
  rw [runLocals, if_pos hflow]

/-! ## Theorems: `local` command lines -/

theorem alnum_ne {c : Char} (h : isNameChar c = true) (s : Char)
    (hs : isNameChar s = false) :
    c ≠ s := by
  intro e
  rw [e, hs] at h
  exact absurd h (by decide)

theorem alnum_not_mem {l : List Char} (h : ∀ c ∈ l, isNameChar c = true) (s : Char)
    (hs : isNameChar s = false) : s ∉ l :=
  fun hm => alnum_ne (h s hm) s hs rfl

theorem parseline_local (w : List Char) (hw : w ≠ []) (hsp : ' ' ∉ w) (hq : QUOTE ∉ w) :
    parseline_no_subst ("local ".toList ++ w ++ [NL]) = some (.done ["local".toList, w]) := by
  have hpad : padLine ("local ".toList ++ w ++ [NL]) = "local ".toList ++ w ++ [' '] := by
    unfold padLine
    rw [if_pos (List.getLast?_concat _), List.dropLast_concat]
  have hskip : skipSpaces ("local ".toList ++ w ++ [' '])
      = "local".toList ++ ' ' :: (w ++ [' ']) := by
    show skipSpaces ('l' :: _) = _
    rw [skipSpaces_cons_ne _ (by decide)]
    simp
  have hskip2 : skipSpaces (w ++ [' ']) = w ++ ' ' :: [] := by
    cases w with
    | nil => exact absurd rfl hw
    | cons c cs =>
      have hc : c ≠ ' ' := fun e => hsp (e ▸ List.mem_cons_self _ _)
      rw [List.cons_append, skipSpaces_cons_ne _ hc]
  have h3 : parseLoop 3 ("local".toList ++ ' ' :: (w ++ [' '])) []
      = some (.done ["local".toList, w]) := by
    rw [parseLoop_word 2 "local".toList _ [] (by decide) (by decide) (by decide) (by decide),
      hskip2, parseLoop_word 1 w [] _ hw hsp hq (by simp [MAXARGS])]
    exact parseLoop_nil 0 _ (by simp [MAXARGS])
  unfold parseline_no_subst
  simp only [hpad, hskip]
  exact parseLoop_fuel_le (by simp) _ _ _ h3

theorem evalCommand_local (sh : Shell) (args : List (List Char)) :
    evalCommand sh "local".toList args = evalLocal sh args := by
  unfold evalCommand
  rw [if_neg (by decide), if_neg (by decide), if_pos rfl]

/-- The evaluation of a line `local WORD` whose word has no `$`, space, quote or bar is
the built-in `local` on that word. -/
theorem eval_local_plain (run : Runner) (fuel : Nat) (argc0 : Int) (p : Nat → Int)
    (sh : Shell) (w : List Char) (hw : w ≠ []) (hsp : ' ' ∉ w) (hq : QUOTE ∉ w)
    (hbar : '|' ∉ w) (hd : '$' ∉ w) :
    eval run (fuel + 1) argc0 p sh ("local ".toList ++ w ++ [NL])
      = some (evalLocal sh [w]) := by
  have hmem : ∀ c, c ∈ "local ".toList ++ w ++ [NL] → c ∈ "local ".toList ∨ c ∈ w ∨ c = NL := by
    intro c hc
    rcases List.mem_append.1 hc with h | h
    · rcases List.mem_append.1 h with h | h
      · exact Or.inl h
      · exact Or.inr (Or.inl h)
    · exact Or.inr (Or.inr (List.mem_singleton.1 h))
  have hnobar : '|' ∉ "local ".toList ++ w ++ [NL] := by
    intro h
    rcases hmem _ h with h | h | h
    · exact absurd h (by decide)
    · exact hbar h
    · exact absurd h (by decide)
  have hnod : '$' ∉ "local ".toList ++ w ++ [NL] := by
    intro h
    rcases hmem _ h with h | h | h
    · exact absurd h (by decide)
    · exact hd h
    · exact absurd h (by decide)
  unfold eval
  rw [if_neg hnobar,
    replaceCommandSubstitution_plain run fuel _ (not_infix_of_not_mem_dollar hnod)]
  simp only
  rw [show do_variable_substitution sh.env sh.local_vars ("local ".toList ++ w ++ [NL])
      = some ("local ".toList ++ w ++ [NL]) from
    substLoop_no_dollar sh.env sh.local_vars _ _ _ hnod (Nat.lt_succ_self _)]
  simp only [parseline_local w hw hsp hq, evalCommand_local, List.map_nil, List.nil_append]

theorem strtok_r_token (delims : Char → Bool) (tok more : List Char) (d : Char)
    (hne : tok ≠ []) (htok : ∀ c ∈ tok, delims c = false) (hd : delims d = true) :
    strtok_r delims (tok ++ d :: more) = some (tok, more) := by
  cases tok with
  | nil => exact absurd rfl hne
  | cons c cs =>
    have hc : delims c = false := htok c (List.mem_cons_self _ _)
    have hall : ∀ a ∈ c :: cs, (!delims a) = true := by
      intro a ha
      simp [htok a ha]
    have h0 : (c :: (cs ++ d :: more)).dropWhile delims = c :: (cs ++ d :: more) := by
      rw [List.dropWhile_cons]
      simp [hc]
    have ht : (c :: cs ++ d :: more).takeWhile (fun x => !delims x) = c :: cs := by
      rw [List.takeWhile_append_of_pos hall]
      simp [hd]
    have hdr : (c :: cs ++ d :: more).dropWhile (fun x => !delims x) = d :: more := by
      rw [List.dropWhile_append_of_pos hall]
      simp [hd]
    simp only [List.cons_append] at ht hdr
    unfold strtok_r
    simp only [List.cons_append, h0, ht, hdr, List.drop_succ_cons, List.drop_zero]

theorem strtok_r_skip (delims : Char → Bool) (d : Char) (s : List Char)
    (hd : delims d = true) : strtok_r delims (d :: s) = strtok_r delims s := by
  unfold strtok_r
  rw [List.dropWhile_cons_of_pos hd]

theorem substLoop_fuel_le (env : Env) (lv : List (List Char)) {f g : Nat} (hfg : f ≤ g)
    (sp cur r : List Char) (h : substLoop env lv f sp cur = some r) :
    substLoop env lv g sp cur = some r := by
  induction hfg with
  | refl => exact h
  | step _ ih => exact substLoop_fuel_succ env lv _ _ _ _ ih

theorem isVarToken_alnum {tok : List Char} (h : ∀ c ∈ tok, isNameChar c = true) :
    isVarToken tok = false :=
  isVarToken_false_of_not_mem (alnum_not_mem h '$' (by decide))

theorem isDelim_alnum {tok : List Char} (h : ∀ c ∈ tok, isNameChar c = true) :
    ∀ c ∈ tok, isDelim c = false := by
  intro c hc
  have h1 := alnum_ne (h c hc) ' ' (by decide)
  have h2 := alnum_ne (h c hc) TAB (by decide)
  have h3 := alnum_ne (h c hc) NL (by decide)
  have h4 := alnum_ne (h c hc) '=' (by decide)
  simp [isDelim, h1, h2, h3, h4]

/-- The expansion loop passes over a name (empty or not) and the `=` after it. -/
theorem substLoop_skip_name (env : Env) (lv : List (List Char)) (f : Nat)
    (name sp cur r : List Char) (hname : ∀ c ∈ name, isNameChar c = true)
    (h : substLoop env lv f sp cur = some r) :
    substLoop env lv (f + 1) (name ++ '=' :: sp) cur = some r := by
  cases hn : name with
  | nil =>
    have h2 := substLoop_fuel_succ env lv f sp cur r h
    rw [substLoop] at h2 ⊢
    rw [List.nil_append, strtok_r_skip isDelim '=' sp (by decide)]
    exact h2
  | cons c cs =>
    rw [← hn, substLoop,
      strtok_r_token isDelim name sp '=' (by rw [hn]; simp) (isDelim_alnum hname) (by decide)]
    simp only [isVarToken_alnum hname]
    exact h

theorem strstr_first (pre t suf : List Char) (c : Char) (hc : c ∉ pre) :
    strstr (pre ++ (c :: t) ++ suf) (c :: t) = some (pre, suf) := by
  induction pre with
  | nil =>
    have hp : (c :: t).isPrefixOf (c :: t ++ suf) = true := by
      rw [List.isPrefixOf_iff_prefix]
      exact List.prefix_append _ _
    simp only [List.nil_append, List.cons_append] at hp ⊢
    rw [strstr, if_pos hp]
    simp
  | cons x xs ih =>
    have hx : x ≠ c := fun e => hc (e ▸ List.mem_cons_self _ _)
    have hnp : (c :: t).isPrefixOf (x :: (xs ++ (c :: t) ++ suf)) = false := by
      simp [List.isPrefixOf, hx.symm]
    show strstr (x :: (xs ++ (c :: t) ++ suf)) (c :: t) = _
    rw [strstr, hnp, ih (fun h => hc (List.mem_cons_of_mem _ h))]
    simp

/-- The Variable Expander on the line `local B=$A`: the token `$A` is replaced by the
value of `A`. -/
theorem do_variable_substitution_ref (env : Env) (lv : List (List Char)) (A B : List Char)
    (hA : ∀ c ∈ A, isNameChar c = true) (hB : ∀ c ∈ B, isNameChar c = true) :
    do_variable_substitution env lv ("local ".toList ++ B ++ '=' :: '$' :: A ++ [NL])
      = some ("local ".toList ++ B ++ '=' :: varValue env lv A ++ [NL]) := by
  have hline : "local ".toList ++ B ++ '=' :: '$' :: A ++ [NL]
      = "local".toList ++ ' ' :: (B ++ '=' :: (('$' :: A) ++ NL :: [])) := by simp
  have hcur : "local ".toList ++ B ++ '=' :: '$' :: A ++ [NL]
      = ("local ".toList ++ B ++ ['=']) ++ ('$' :: A) ++ [NL] := by simp
  have hpre : '$' ∉ "local ".toList ++ B ++ ['='] := by
    intro h
    rcases List.mem_append.1 h with h | h
    · rcases List.mem_append.1 h with h | h
      · exact absurd h (by decide)
      · exact alnum_not_mem hB '$' (by decide) h
    · exact absurd h (by decide)
  have hvar : isVarToken ('$' :: A) = true := by
    cases A with
    | nil => rfl
    | cons c cs =>
      have hc : c ≠ '(' := alnum_ne (hA c (List.mem_cons_self _ _)) '(' (by decide)
      unfold isVarToken
      split
      · rename_i heq
        simp only [List.cons.injEq, true_and] at heq
        exact absurd heq.1 hc
      · rfl
      · rename_i h2
        exact absurd rfl (h2 _)
  have htokA : ∀ c ∈ '$' :: A, isDelim c = false := by
    intro c hc
    rcases List.mem_cons.1 hc with rfl | hc
    · decide
    · exact isDelim_alnum hA c hc
  -- the last token
  have h2 : ∀ cur, substLoop env lv 2 (('$' :: A) ++ NL :: []) cur
      = some (splice cur ('$' :: A) (varValue env lv A)) := by
    intro cur
    rw [substLoop, strtok_r_token isDelim ('$' :: A) [] NL (by simp) htokA (by decide)]
    simp only [hvar, if_true, List.drop_succ_cons, List.drop_zero]
    rw [substLoop]
    rfl
  have h4 : ∀ cur, substLoop env lv 4 ("local".toList ++ ' ' :: (B ++ '=' :: (('$' :: A) ++ NL :: [])))
      cur = some (splice cur ('$' :: A) (varValue env lv A)) := by
    intro cur
    rw [substLoop, strtok_r_token isDelim "local".toList _ ' ' (by decide) (by decide)
      (by decide)]
    simp only [show isVarToken "local".toList = false by decide]
    exact substLoop_skip_name env lv 2 B _ cur _ hB (h2 cur)
  unfold do_variable_substitution
  have hres := h4 ("local ".toList ++ B ++ '=' :: '$' :: A ++ [NL])
  rw [← hline] at hres
  rw [substLoop_fuel_le env lv (by simp) _ _ _ hres]
  unfold splice
  rw [hcur, strstr_first _ A [NL] '$' hpre]
  simp

/-- The evaluation of the line `local B=$A` is the built-in `local` on `B=` followed by
the value of `A`, when that value has no space, quote, bar or `$`. -/
theorem eval_local_ref (run : Runner) (fuel : Nat) (argc0 : Int) (p : Nat → Int)
    (sh : Shell) (A B : List Char) (hA : ∀ c ∈ A, isNameChar c = true)
    (hB : ∀ c ∈ B, isNameChar c = true)
    (hval : ∀ c ∈ varValue sh.env sh.local_vars A, isNameChar c = true) :
    eval run (fuel + 1) argc0 p sh ("local ".toList ++ B ++ '=' :: '$' :: A ++ [NL])
      = some (evalLocal sh [B ++ '=' :: varValue sh.env sh.local_vars A]) := by
  have hmem : ∀ c, c ∈ "local ".toList ++ B ++ '=' :: '$' :: A ++ [NL] →
      c ∈ "local =$".toList ∨ c ∈ B ∨ c ∈ A ∨ c = NL := by
    intro c hc
    simp only [List.mem_append, List.mem_cons, List.mem_singleton] at hc
    rcases hc with ((h | h) | h | h | h) | h
    · exact Or.inl (by
        have : c ∈ "local ".toList := h
        revert this
        simp only [String.toList, List.mem_cons]
        rintro (h | h | h | h | h | h | h) <;> simp [h])
    · exact Or.inr (Or.inl h)
    · exact Or.inl (by rw [h]; decide)
    · exact Or.inl (by rw [h]; decide)
    · exact Or.inr (Or.inr (Or.inl h))
    · cases h with
      | inl h => exact Or.inr (Or.inr (Or.inr h))
      | inr h => exact absurd h (List.not_mem_nil _)
  have hnot : ∀ s : Char, isNameChar s = false → s ∉ "local =$".toList → s ≠ NL →
      s ∉ "local ".toList ++ B ++ '=' :: '$' :: A ++ [NL] := by
    intro s hs h1 h2 h
    rcases hmem s h with h | h | h | h
    · exact h1 h
    · exact alnum_not_mem hB s hs h
    · exact alnum_not_mem hA s hs h
    · exact h2 h
  have hnobar := hnot '|' (by decide) (by decide) (by decide)
  have hnoparen := hnot '(' (by decide) (by decide) (by decide)
  have hw : B ++ '=' :: varValue sh.env sh.local_vars A ≠ [] := by simp
  have hsp : ' ' ∉ B ++ '=' :: varValue sh.env sh.local_vars A := by
    simp only [List.mem_append, List.mem_cons, not_or]
    exact ⟨alnum_not_mem hB ' ' (by decide), by decide, alnum_not_mem hval ' ' (by decide)⟩
  have hq : QUOTE ∉ B ++ '=' :: varValue sh.env sh.local_vars A := by
    simp only [List.mem_append, List.mem_cons, not_or]
    exact ⟨alnum_not_mem hB QUOTE (by decide), by decide,
      alnum_not_mem hval QUOTE (by decide)⟩
  have hparse := parseline_local _ hw hsp hq
  have e : "local ".toList ++ (B ++ '=' :: varValue sh.env sh.local_vars A) ++ [NL]
      = "local ".toList ++ B ++ '=' :: varValue sh.env sh.local_vars A ++ [NL] := by simp
  rw [e] at hparse
  unfold eval
  rw [if_neg hnobar,
    replaceCommandSubstitution_plain run fuel _ (not_infix_of_not_mem_paren hnoparen)]
  simp only
  rw [do_variable_substitution_ref sh.env sh.local_vars A B hA hB]
  simp only [hparse, evalCommand_local, List.map_nil, List.nil_append]

/-- The built-in `local NAME=VALUE` for a value that does not begin with `$`, on a store
that has NAME or has room: NAME is bound to VALUE and no other name is touched. -/
theorem evalLocal_set (sh : Shell) (name value : List Char) (hname : '=' ∉ name)
    (hlen : name.length < 256) (hplain : value.head? ≠ some '$')
    (hok : StoreOk sh.local_vars)
    (hroom : (∃ e ∈ sh.local_vars, entryName e = name) ∨ sh.local_vars.length < MAXARGS) :
    (evalLocal sh [name ++ '=' :: value]).flow = .returned
      ∧ (evalLocal sh [name ++ '=' :: value]).shell.env = sh.env
      ∧ StoreOk (evalLocal sh [name ++ '=' :: value]).shell.local_vars
      ∧ lookupLocal (evalLocal sh [name ++ '=' :: value]).shell.local_vars name = some value
      ∧ (∀ other, other ≠ name →
          lookupLocal (evalLocal sh [name ++ '=' :: value]).shell.local_vars other
            = lookupLocal sh.local_vars other)
      ∧ (evalLocal sh [name ++ '=' :: value]).shell.local_vars.length
          ≤ sh.local_vars.length + 1 := by
  have hres := resolveLocalValue_plain sh.local_vars value hplain
  by_cases hex : ∃ e ∈ sh.local_vars, entryName e = name
  · obtain ⟨e, hmem, he⟩ := hex
    obtain ⟨front, back, hdec⟩ := List.append_of_mem hmem
    have hok2 := hok
    rw [hdec] at hok2
    rw [evalLocal_update sh name value [] front back e hname hlen hok hdec he
      (readsFreedEntry_plain _ _ _ hplain), hres]
    refine ⟨rfl, rfl, storeOk_update name value hname hok2 he, ?_, ?_, ?_⟩
    · exact lookupLocal_entry front back name value hname
        (fun x hx => he ▸ (storeOk_names_front_back hok2).2 x hx)
    · intro other hother
      simp only [hdec]
      exact lookupLocal_other front back e (name ++ '=' :: value) other
        (hok2.1 e (List.mem_append_right _ (List.mem_cons_self _ _))) (by simp)
        (by rw [he]; exact fun h => hother h.symm)
        (by rw [entryName_append name value hname]; exact fun h => hother h.symm)
    · simp only [hdec, List.length_append, List.length_cons]
      omega
  · have hnew : ∀ e ∈ sh.local_vars, entryName e ≠ name := fun e he heq => hex ⟨e, he, heq⟩
    have hr : sh.local_vars.length < MAXARGS := by
      rcases hroom with h | h
      · exact absurd h hex
      · exact h
    rw [evalLocal_append sh name value [] hname hlen hok hnew hr, hres]
    refine ⟨rfl, rfl, storeOk_append name value hname hok hnew hr, ?_, ?_, ?_⟩
    · exact lookupLocal_entry sh.local_vars [] name value hname (by simp)
    · intro other hother
      simp only
      rw [lookupLocal_concat, strchr_append value hname]
      simp only [if_neg (fun h : name = other => hother h.symm)]
    · simp

theorem head?_alnum {v : List Char} (h : ∀ c ∈ v, isNameChar c = true) :
    v.head? ≠ some '$' := by
  cases v with
  | nil => simp
  | cons c cs =>
    simp only [List.head?_cons, ne_eq, Option.some.injEq]
    exact alnum_ne (h c (List.mem_cons_self _ _)) '$' (by decide)

theorem word_alnum {n v : List Char} (hn : ∀ c ∈ n, isNameChar c = true)
    (hv : ∀ c ∈ v, isNameChar c = true) (s : Char) (hs : isNameChar s = false)
    (hse : s ≠ '=') : s ∉ n ++ '=' :: v := by
  simp only [List.mem_append, List.mem_cons, not_or]
  exact ⟨alnum_not_mem hn s hs, hse, alnum_not_mem hv s hs⟩

/-- C16, amended. Local copy at assignment: for distinct names `A` and `B` shorter than
256 characters and values `v` and `w`, all made of letters, digits and underscores, with
`A` not set in the environment, on a store with distinct names that has room for two
more entries,
evaluating `local A=v` and then `local B=$A` leaves `B` bound to `v`, and a later
`local A=w` changes `A` to `w` while `B` stays bound to `v`. -/
theorem local_copy_at_assignment (run : Runner) (fuel : Nat) (argc0 : Int) (p : Nat → Int)
    (sh : Shell) (A B v w : List Char)
    (hA : ∀ c ∈ A, isNameChar c = true) (hB : ∀ c ∈ B, isNameChar c = true)
    (hv : ∀ c ∈ v, isNameChar c = true) (hw : ∀ c ∈ w, isNameChar c = true)
    (hAB : A ≠ B) (hAlen : A.length < 256) (hBlen : B.length < 256)
    (henv : sh.env A = none) (hok : StoreOk sh.local_vars)
    (hroom : sh.local_vars.length + 2 ≤ MAXARGS) :
    ∃ r1 r2 r3,
      eval run (fuel + 1) argc0 p sh ("local ".toList ++ (A ++ '=' :: v) ++ [NL]) = some r1
        ∧ eval run (fuel + 1) argc0 p r1.shell ("local ".toList ++ B ++ '=' :: '$' :: A ++ [NL])
          = some r2
        ∧ eval run (fuel + 1) argc0 p r2.shell ("local ".toList ++ (A ++ '=' :: w) ++ [NL])
          = some r3
        ∧ r1.flow = .returned ∧ r2.flow = .returned ∧ r3.flow = .returned
        ∧ lookupLocal r2.shell.local_vars A = some v
        ∧ lookupLocal r2.shell.local_vars B = some v
        ∧ lookupLocal r3.shell.local_vars A = some w
        ∧ lookupLocal r3.shell.local_vars B = some v := by
  have hAeq : '=' ∉ A := alnum_not_mem hA '=' (by decide)
  have hBeq : '=' ∉ B := alnum_not_mem hB '=' (by decide)
  -- local A=v
  have e1 := eval_local_plain run fuel argc0 p sh (A ++ '=' :: v) (by simp)
    (word_alnum hA hv ' ' (by decide) (by decide))
    (word_alnum hA hv QUOTE (by decide) (by decide))
    (word_alnum hA hv '|' (by decide) (by decide))
    (word_alnum hA hv '$' (by decide) (by decide))
  obtain ⟨f1, env1, ok1, lA1, _, len1⟩ := evalLocal_set sh A v hAeq hAlen (head?_alnum hv) hok
    (Or.inr (by omega))
  -- local B=$A
  have hval : varValue (evalLocal sh [A ++ '=' :: v]).shell.env
      (evalLocal sh [A ++ '=' :: v]).shell.local_vars A = v := by
    simp only [varValue, env1, henv, lA1]
  have e2 := eval_local_ref run fuel argc0 p (evalLocal sh [A ++ '=' :: v]).shell A B hA hB
    (by rw [hval]; exact hv)
  rw [hval] at e2
  obtain ⟨f2, _, ok2, lB2, oth2, _⟩ := evalLocal_set (evalLocal sh [A ++ '=' :: v]).shell B v
    hBeq hBlen (head?_alnum hv) ok1 (Or.inr (by omega))
  have lA2 := (oth2 A hAB).trans lA1
  -- local A=w
  have e3 := eval_local_plain run fuel argc0 p
    (evalLocal (evalLocal sh [A ++ '=' :: v]).shell [B ++ '=' :: v]).shell (A ++ '=' :: w)
    (by simp) (word_alnum hA hw ' ' (by decide) (by decide))
    (word_alnum hA hw QUOTE (by decide) (by decide))
    (word_alnum hA hw '|' (by decide) (by decide))
    (word_alnum hA hw '$' (by decide) (by decide))
  have hhas : ∃ e ∈ (evalLocal (evalLocal sh [A ++ '=' :: v]).shell [B ++ '=' :: v]).shell.local_vars,
      entryName e = A :=
    ⟨A ++ '=' :: v, lookupLocal_mem lA2, entryName_append A v hAeq⟩
  obtain ⟨f3, _, _, lA3, oth3, _⟩ := evalLocal_set
    (evalLocal (evalLocal sh [A ++ '=' :: v]).shell [B ++ '=' :: v]).shell A w
    hAeq hAlen (head?_alnum hw) ok2 (Or.inl hhas)
  exact ⟨_, _, _, e1, e2, e3, f1, f2, f3, lA2, lB2, lA3,
    (oth3 B (fun h => hAB h.symm)).trans lB2⟩

/-- C16 amended, at `local A=1`, `local B=$A`, `local A=2` from the empty store. -/
theorem local_copy_at_assignment_witness :
    ∃ r1 r2 r3,
      eval echoRunner (0 + 1) 0 (fun _ => 0) ⟨emptyEnv, [], 0⟩
          ("local ".toList ++ ("A".toList ++ '=' :: "1".toList) ++ [NL]) = some r1
        ∧ eval echoRunner (0 + 1) 0 (fun _ => 0) r1.shell
            ("local ".toList ++ "B".toList ++ '=' :: '$' :: "A".toList ++ [NL]) = some r2
        ∧ eval echoRunner (0 + 1) 0 (fun _ => 0) r2.shell
            ("local ".toList ++ ("A".toList ++ '=' :: "2".toList) ++ [NL]) = some r3
        ∧ r1.flow = .returned ∧ r2.flow = .returned ∧ r3.flow = .returned
        ∧ lookupLocal r2.shell.local_vars "A".toList = some "1".toList
        ∧ lookupLocal r2.shell.local_vars "B".toList = some "1".toList
        ∧ lookupLocal r3.shell.local_vars "A".toList = some "2".toList
        ∧ lookupLocal r3.shell.local_vars "B".toList = some "1".toList :=
  local_copy_at_assignment echoRunner 0 0 (fun _ => 0) ⟨emptyEnv, [], 0⟩ "A".toList "B".toList
    "1".toList "2".toList (by decide) (by decide) (by decide) (by decide) (by decide)
    (by decide) (by decide) rfl ⟨by decide, by decide, by decide⟩ (by decide)

theorem fullStore_mem {n : Nat} {e : List Char} (h : e ∈ fullStore n) :
    ∃ i, e = List.replicate (i + 1) 'a' ++ '=' :: [] := by
  unfold fullStore at h
  obtain ⟨i, _, rfl⟩ := List.mem_map.1 h
  exact ⟨i, rfl⟩

theorem fullStore_name {n : Nat} {e : List Char} (h : e ∈ fullStore n) :
    ∃ i, entryName e = List.replicate (i + 1) 'a' := by
  obtain ⟨i, rfl⟩ := fullStore_mem h
  refine ⟨i, entryName_append _ [] ?_⟩
  intro hm
  exact absurd (List.eq_of_mem_replicate hm) (by decide)

theorem fullStore_name_ne {n : Nat} {e : List Char} (h : e ∈ fullStore n) (c : Char)
    (hc : c ≠ 'a') : entryName e ≠ [c] := by
  obtain ⟨i, hi⟩ := fullStore_name h
  rw [hi, List.replicate_succ]
  intro heq
  simp only [List.cons.injEq] at heq
  exact hc heq.1.symm

theorem storeOk_fullStore (n : Nat) (hn : n ≤ MAXARGS) : StoreOk (fullStore n) := by
  refine ⟨?_, ?_, ?_⟩
  · intro e he
    obtain ⟨i, rfl⟩ := fullStore_mem he
    simp
  · have hmap : (fullStore n).map entryName
        = (List.range n).map (fun i => List.replicate (i + 1) 'a') := by
      unfold fullStore
      rw [List.map_map]
      apply List.map_congr_left
      intro i _
      exact entryName_append _ [] (by
        intro hm
        exact absurd (List.eq_of_mem_replicate hm) (by decide))
    rw [hmap]
    apply List.Nodup.map _ (List.nodup_range n)
    intro i j hij
    have := congrArg List.length hij
    simpa using this
  · simp [fullStore, hn]

/-- C16, as stated, fails. On a store that holds `MAXARGS` other variables, `local A=1`
stores nothing, `local B=$A` then expands to `local B=` and stores nothing either: `B` is
not bound to `1`. And for a name `A` of 300 letters, `local A=1` overruns `var_name`. -/
theorem local_copy_full_store :
    StoreOk (fullStore MAXARGS)
      ∧ (∃ r1 r2,
          eval echoRunner 1 0 (fun _ => 0) ⟨emptyEnv, fullStore MAXARGS, 0⟩
              "local A=1\n".toList = some r1
            ∧ eval echoRunner 1 0 (fun _ => 0) r1.shell "local B=$A\n".toList = some r2
            ∧ lookupLocal r2.shell.local_vars "B".toList = none)
      ∧ (eval echoRunner 1 0 (fun _ => 0) ⟨emptyEnv, [], 0⟩
          ("local ".toList ++ (List.replicate 300 'a' ++ "=1".toList) ++ [NL])).map
            (fun r => r.flow) = some .undefined := by
  have hok := storeOk_fullStore MAXARGS (le_refl _)
  have hfull : ¬ (fullStore MAXARGS).length < MAXARGS := by simp [fullStore]
  have hnewA : ∀ e ∈ fullStore MAXARGS, entryName e ≠ "A".toList :=
    fun e he => fullStore_name_ne he 'A' (by decide)
  have hnewB : ∀ e ∈ fullStore MAXARGS, entryName e ≠ "B".toList :=
    fun e he => fullStore_name_ne he 'B' (by decide)
  have e1 := eval_local_plain echoRunner 0 0 (fun _ => 0) ⟨emptyEnv, fullStore MAXARGS, 0⟩
    ("A".toList ++ '=' :: "1".toList) (by decide) (by decide) (by decide) (by decide)
    (by decide)
  rw [evalLocal_full ⟨emptyEnv, fullStore MAXARGS, 0⟩ "A".toList "1".toList [] (by decide)
    (by decide) hok hnewA hfull] at e1
  have hval : varValue emptyEnv (fullStore MAXARGS) "A".toList = [] := by
    simp only [varValue, emptyEnv, lookupLocal_none_of_names hnewA]
  have e2 := eval_local_ref echoRunner 0 0 (fun _ => 0) ⟨emptyEnv, fullStore MAXARGS, 0⟩
    "A".toList "B".toList (by decide) (by decide) (by
      show ∀ c ∈ varValue emptyEnv (fullStore MAXARGS) "A".toList, isNameChar c = true
      rw [hval]
      simp)
  have hval2 : varValue (Shell.mk emptyEnv (fullStore MAXARGS) 0).env
      (Shell.mk emptyEnv (fullStore MAXARGS) 0).local_vars "A".toList = [] := hval
  rw [hval2, evalLocal_full ⟨emptyEnv, fullStore MAXARGS, 0⟩ "B".toList [] [] (by decide)
    (by decide) hok hnewB hfull] at e2
  refine ⟨hok, ⟨_, _, e1, e2, lookupLocal_none_of_names hnewB⟩, ?_⟩
  have hrep : ∀ s : Char, s ≠ 'a' → s ≠ '=' → s ≠ '1' →
      s ∉ List.replicate 300 'a' ++ "=1".toList := by
    intro s h1 h2 h3 hm
    rcases List.mem_append.1 hm with h | h
    · exact h1 (List.eq_of_mem_replicate h)
    · simp only [String.toList, List.mem_cons, List.mem_singleton] at h
      rcases h with h | h | h
      · exact h2 h
      · exact h3 h
      · exact absurd h (List.not_mem_nil _)
  rw [eval_local_plain echoRunner 0 0 (fun _ => 0) ⟨emptyEnv, [], 0⟩
    (List.replicate 300 'a' ++ "=1".toList)
    (List.append_ne_nil_of_right_ne_nil _ (by decide))
    (hrep ' ' (by decide) (by decide) (by decide))
    (hrep QUOTE (by decide) (by decide) (by decide))
    (hrep '|' (by decide) (by decide) (by decide))
    (hrep '$' (by decide) (by decide) (by decide))]
  have hs : strchr '=' (List.replicate 300 'a' ++ "=1".toList)
      = some (List.replicate 300 'a', "1".toList) :=
    strchr_append "1".toList (by
      intro h
      exact absurd (List.eq_of_mem_replicate h) (by decide))
  simp only [Option.map_some', evalLocal, hs, List.length_replicate]
  rfl

/-! ## Theorems: termination of the substitution expander -/

/-- A successful parenthesis scan splits its input into the body, one closing character and the
text after it. -/
theorem scanParens_split : ∀ (rest : List Char) (paren_count : Nat) (body sub_end : List Char),
    scanParens paren_count rest = some (body, sub_end) → ∃ c, rest = body ++ c :: sub_end := by
  intro rest
  induction rest with
  | nil => intro d body e h; simp [scanParens] at h
  | cons c cs ih =>
    intro d body e h
    rw [scanParens] at h
    generalize (if c = '(' then d + 1 else if c = ')' then d - 1 else d) = d2 at h
    by_cases hz : d2 = 0
    · simp only [hz, if_true, Option.some.injEq, Prod.mk.injEq] at h
      obtain ⟨h1, h2⟩ := h
      subst h1; subst h2
      exact ⟨c, rfl⟩
    · simp only [hz, if_false] at h
      cases hsc : scanParens d2 cs with
      | none => simp [hsc] at h
      | some p =>
        obtain ⟨b, e2⟩ := p
        simp only [hsc, Option.some.injEq, Prod.mk.injEq] at h
        obtain ⟨h1, h2⟩ := h
        subst h1; subst h2
        obtain ⟨c2, hc2⟩ := ih _ _ _ hsc
        exact ⟨c2, by rw [hc2]; rfl⟩

/-- Stripping the trailing newline never adds a dollar sign. -/
theorem count_stripNewline_le (o : List Char) :
    (stripNewline o).count '$' ≤ o.count '$' := by
  unfold stripNewline
  split
  · exact List.Sublist.count_le (List.dropLast_sublist o) '$'
  · exact le_refl _

theorem popenArgs_append (l1 l2 : List Action) :
    popenArgs (l1 ++ l2) = popenArgs l1 ++ popenArgs l2 := by
  simp [popenArgs, List.filterMap_append]

theorem popenArgs_popen (cmd : Option (List Char)) : popenArgs [Action.popen cmd] = [cmd] := rfl

theorem popenArgs_error (msg : String) : popenArgs [Action.error msg] = [] := rfl

/-- Bound on the commands run, and termination: when no captured output holds a dollar sign, any
fuel above the number of dollar signs of the line settles how the call ends, and the commands run
(calls of `popen`) are at most as many as the dollar signs of the line; the call ends in the
endless read loop only if some captured output has `MAXLINE - 1` characters or more. -/
theorem replaceCommandSubstitution_runs_le (run : Runner)
    (hout : ∀ cmd o, run cmd = some o → '$' ∉ o) :
    ∀ (fuel : Nat) (line : List Char), line.count '$' < fuel →
      ∃ log e, replaceCommandSubstitution run fuel line = some (log, e) ∧
        (popenArgs log).length ≤ line.count '$' ∧
        ((∀ cmd o, run cmd = some o → o.length < MAXLINE - 1) → e ≠ .hang) := by
  intro fuel
  induction fuel with
  | zero => intro line h; exact absurd h (Nat.not_lt_zero _)
  | succ fuel ih =>
    intro line hlt
    rw [replaceCommandSubstitution]
    cases hs : strstr line ['$', '('] with
    | none => exact ⟨[], .ok line, rfl, Nat.zero_le _, fun _ => by simp⟩
    | some p =>
      obtain ⟨before, rest⟩ := p
      simp only
      have hline := strstr_some hs
      cases hsc : scanParens 1 rest with
      | none => exact ⟨_, .null .unmatched, rfl, Nat.zero_le _, fun _ => by simp⟩
      | some q =>
        obtain ⟨body, sub_end⟩ := q
        simp only
        obtain ⟨c, hrest⟩ := scanParens_split rest 1 body sub_end hsc
        have hcount : before.count '$' + 1 + body.count '$' + sub_end.count '$'
            ≤ line.count '$' := by
          rw [hline, hrest]
          simp only [List.count_append, List.count_cons, List.count_nil]
          simp only [beq_self_eq_true, if_true]
          omega
        by_cases hb : body = []
        · simp only [hb, if_true]
          exact ⟨_, .null .emptyBody, rfl, Nat.zero_le _, fun _ => by simp⟩
        · simp only [hb, if_false]
          obtain ⟨log1, e1, hr1, hlen1, hne1⟩ := ih body (by omega)
          rw [hr1]
          have key : ∀ arg : Option (List Char),
              ∃ log e,
                (match run arg with
                  | none =>
                    some (log1 ++ [Action.popen arg,
                      Action.error SubstFailure.popenFailed.message],
                      Expansion.null SubstFailure.popenFailed)
                  | some stream =>
                    match readOutput stream with
                    | none => some (log1 ++ [Action.popen arg], Expansion.hang)
                    | some output =>
                      match replaceCommandSubstitution run fuel
                          (before ++ stripNewline output ++ sub_end) with
                      | none => none
                      | some (log2, r) => some (log1 ++ [Action.popen arg] ++ log2, r))
                  = some (log, e) ∧ (popenArgs log).length ≤ line.count '$' ∧
                  ((∀ cmd o, run cmd = some o → o.length < MAXLINE - 1) → e ≠ .hang) := by
            intro arg
            cases hrun : run arg with
            | none =>
              refine ⟨_, _, rfl, ?_, fun _ => by simp⟩
              rw [popenArgs_append]
              simp only [List.length_append]
              have : (popenArgs [Action.popen arg,
                  Action.error SubstFailure.popenFailed.message]).length = 1 := rfl
              omega
            | some o =>
              have hd := hout arg o hrun
              by_cases hl : o.length < MAXLINE - 1
              · simp only [readOutput_eq, hl, if_true]
                have hso : (stripNewline o).count '$' = 0 :=
                  Nat.eq_zero_of_le_zero
                    (le_trans (count_stripNewline_le o) (le_of_eq (List.count_eq_zero.2 hd)))
                have hc2 : (before ++ stripNewline o ++ sub_end).count '$'
                    = before.count '$' + sub_end.count '$' := by
                  simp only [List.count_append, hso, Nat.add_zero]
                obtain ⟨log2, e2, hr2, hlen2, hne2⟩ :=
                  ih (before ++ stripNewline o ++ sub_end) (by omega)
                rw [hr2]
                refine ⟨log1 ++ [Action.popen arg] ++ log2, e2, rfl, ?_, hne2⟩
                rw [popenArgs_append, popenArgs_append, popenArgs_popen]
                simp only [List.length_append, List.length_singleton]
                omega
              · simp only [readOutput_eq, hl, if_false]
                refine ⟨log1 ++ [Action.popen arg], _, rfl, ?_,
                  fun hshort => absurd (hshort arg o hrun) hl⟩
                rw [popenArgs_append, popenArgs_popen]
                simp only [List.length_append, List.length_singleton]
                omega
          cases e1 with
          | hang => exact ⟨log1, .hang, rfl, by omega, hne1⟩
          | ok s => exact key (some s)
          | null w => exact key none

/-- Termination of the expander: when every captured output is free of dollar signs and shorter
than `MAXLINE - 1`, any fuel above the number of dollar signs of the line lets the call end by
returning (a string or `NULL`), after at most as many commands as the line has dollar signs. -/
theorem replaceCommandSubstitution_terminates (run : Runner)
    (hout : ∀ cmd o, run cmd = some o → '$' ∉ o ∧ o.length < MAXLINE - 1)
    (fuel : Nat) (line : List Char) (hfuel : line.count '$' < fuel) :
    ∃ log e, replaceCommandSubstitution run fuel line = some (log, e) ∧ e ≠ .hang ∧
      (popenArgs log).length ≤ line.count '$' := by
  obtain ⟨log, e, hr, hlen, hne⟩ :=
    replaceCommandSubstitution_runs_le run (fun cmd o h => (hout cmd o h).1) fuel line hfuel
  exact ⟨log, e, hr, hne (fun cmd o h => (hout cmd o h).2), hlen⟩

/-- An instance of the termination theorem: with a runner that answers every command with `xxx`,
the expansion of a line with three substitutions, one nested, returns after at most three
commands. -/
theorem replaceCommandSubstitution_terminates_short :
    ∃ log e, replaceCommandSubstitution (longRunner 3) 4 "a $(b $(c)) $(d)".toList
        = some (log, e) ∧ e ≠ .hang
      ∧ (popenArgs log).length ≤ "a $(b $(c)) $(d)".toList.count '$' :=
  replaceCommandSubstitution_terminates (longRunner 3)
    (by
      intro cmd o h
      simp only [longRunner, Option.some.injEq] at h
      subst h
      exact ⟨by decide, by decide⟩)
    4 "a $(b $(c)) $(d)".toList (by decide)

/-- C21. With a runner that answers every command with 2000 letters `x` (a total function
whose output has no dollar sign), the expansion of `echo $(c) done` never returns, whatever
the fuel: the command `c` is run, the capture buffer fills up, and the loop that reads the output
goes on for ever (with fuel 0 or 1 the model has not yet reached that loop). -/
theorem replaceCommandSubstitution_long_output_never_returns :
    (∀ cmd, longRunner 2000 cmd = some (List.replicate 2000 'x'))
      ∧ '$' ∉ List.replicate 2000 'x'
      ∧ ∀ fuel, replaceCommandSubstitution (longRunner 2000) fuel "echo $(c) done".toList
          = if fuel < 2 then none else some ([.popen (some "c".toList)], .hang) := by
  refine ⟨fun _ => rfl, fun h => absurd (List.eq_of_mem_replicate h) (by decide), ?_⟩
  intro fuel
  match fuel with
  | 0 => rfl
  | 1 => decide
  | k + 2 =>
    have hk : ¬ k + 2 < 2 := by omega
    simp only [hk, if_false]
    exact replaceCommandSubstitution_iter_hang (longRunner 2000) (k + 1) "echo ".toList
      "c) done".toList "c".toList " done".toList "c".toList (List.replicate 2000 'x') []
      (by decide) (by decide) (by decide)
      (replaceCommandSubstitution_plain (longRunner 2000) k "c".toList (by decide)) rfl
      (by rw [List.length_replicate]; decide)

/-! ## Theorems: the resolution order of variables -/

/-- C6. Variable resolution order: for a NAME without delimiter characters that does not
start with `(`, expanding the one-token string `$NAME` returns the value of NAME in the
environment when it is set there, whatever the store holds; otherwise, when the store has
entries `NAME=...`, the value of the last of them, which in a store with distinct names is the
value of its one entry `NAME=v`; otherwise, when the store has no entry `NAME=...`, the empty
string. -/
theorem do_variable_substitution_single (env : Env) (lv : List (List Char))
    (name : List Char) (hdelim : ∀ c ∈ name, isDelim c = false)
    (hparen : name.head? ≠ some '(') :
    (∀ v, env name = some v → do_variable_substitution env lv ('$' :: name) = some v)
      ∧ (∀ front back v, env name = none → lv = front ++ (name ++ '=' :: v) :: back →
          (∀ w, (name ++ '=' :: w) ∉ back) →
          do_variable_substitution env lv ('$' :: name) = some v)
      ∧ (∀ v, env name = none → StoreOk lv → (name ++ '=' :: v) ∈ lv →
          do_variable_substitution env lv ('$' :: name) = some v)
      ∧ (env name = none → (∀ w, (name ++ '=' :: w) ∉ lv) →
          do_variable_substitution env lv ('$' :: name) = some []) := by
  have hn : '=' ∉ name := fun h => absurd (hdelim '=' h) (by decide)
  have htok := do_variable_substitution_token env lv name hdelim hparen
  refine ⟨?_, ?_, ?_, ?_⟩
  · intro v hv
    rw [htok, varValue, hv]
  · intro front back v henv hdec hback
    rw [htok, varValue, henv, hdec, lookupLocal_last front back name v hn hback]
  · intro v henv hok hmem
    rw [htok, varValue, henv, lookupLocal_of_mem hok hn hmem]
  · intro henv hnone
    rw [htok, varValue, henv, lookupLocal_none_of_not_mem hnone]

/-- C6, at the name `HOME`: set to `/root` in the environment and to `/tmp` in the store, the
expansion of `$HOME` is `/root`; set in the store only, as `HOME=/tmp` after `X=a`, it is `/tmp`;
set nowhere, with `X=a` in the store, it is the empty string. -/
theorem do_variable_substitution_single_witness :
    do_variable_substitution (fun n => if n = "HOME".toList then some "/root".toList else none)
        ["HOME=/tmp".toList] "$HOME".toList = some "/root".toList
      ∧ do_variable_substitution emptyEnv ["X=a".toList, "HOME=/tmp".toList] "$HOME".toList
        = some "/tmp".toList
      ∧ do_variable_substitution emptyEnv ["HOME=/tmp".toList, "X=a".toList] "$HOME".toList
        = some "/tmp".toList
      ∧ do_variable_substitution emptyEnv ["X=a".toList] "$HOME".toList = some [] :=
  ⟨(do_variable_substitution_single
      (fun n => if n = "HOME".toList then some "/root".toList else none)
      ["HOME=/tmp".toList] "HOME".toList (by decide) (by decide)).1 "/root".toList rfl,
    (do_variable_substitution_single emptyEnv ["X=a".toList, "HOME=/tmp".toList]
      "HOME".toList (by decide) (by decide)).2.1 ["X=a".toList] [] "/tmp".toList rfl rfl
      (by simp),
    (do_variable_substitution_single emptyEnv ["HOME=/tmp".toList, "X=a".toList]
      "HOME".toList (by decide) (by decide)).2.2.1 "/tmp".toList rfl
      ⟨by decide, by decide, by decide⟩ (by decide),
    (do_variable_substitution_single emptyEnv ["X=a".toList]
      "HOME".toList (by decide) (by decide)).2.2.2 rfl (by simp)⟩
end Wsh
